import Mathlib

/-!
The ghostline-gate proxy: length-prefixed framing

A shallow embedding of the framing codec (`net/encode.hpp`, `net/stream_buffer.hpp`,
`net/frame_extractor.hpp`), the transform chain (`transform/chain.hpp`) and the epoll
engine (`src/linux_epoll_proxy.cpp`), followed by theorems about them.

Conventions of the embedding:
* `uint32_t` / `uint64_t` values are natural numbers, reduced `% 2^32` / `% 2^64` wherever
  the C++ arithmetic is performed in that type;
* a C++ operation whose behaviour is undefined (an `erase` or a range copy past the end of
  the vector) yields `Outcome.ub`;
* loops that are not structurally recursive carry an iteration budget and yield
  `Outcome.fuel` when it is exhausted; the budget handed out by the callers is shown to
  suffice;
* `std::unordered_map` is a partial function from keys to values.
-/

namespace Ghostline

universe u v w

/-! ## Basic types -/

/-- Modelled from the spec: `core/types.hpp` is not among the sources; the spec calls a
buffer "an ordered sequence of octets", so `byte` is an octet. -/
abbrev byte := Fin 256

/-- Modelled from the spec: `ByteVec` is declared in the missing `core/types.hpp`; it is
the vector of octets (`std::vector<byte>`). -/
abbrev ByteVec := List byte

/-- The octet `n % 256`. -/
def toByte (n : Nat) : byte := ⟨n % 256, Nat.mod_lt _ (by decide)⟩

/-- Result of running a piece of the program. -/
inductive Outcome (α : Type u) where
  | ok (a : α)
  | ub
  | fuel

namespace Outcome

/-- Sequencing: the first failure wins. -/
def bind {α : Type u} {β : Type v} (x : Outcome α) (f : α → Outcome β) : Outcome β :=
  match x with
  | ok a => f a
  | ub => ub
  | fuel => fuel

/-- The value of a successful run. -/
def toOption {α : Type u} : Outcome α → Option α
  | ok a => some a
  | ub => none
  | fuel => none

end Outcome

/-! ## Byte order (`<arpa/inet.h>` on a little-endian host) -/

/-- Byte swap of a 32-bit value. -/
def bswap32 (v : Nat) : Nat :=
  (v % 256) * 2 ^ 24 + (v / 2 ^ 8 % 256) * 2 ^ 16 + (v / 2 ^ 16 % 256) * 2 ^ 8 + (v / 2 ^ 24 % 256)

/-- The function `htonl` on a little-endian host. -/
def htonl (v : Nat) : Nat := bswap32 v

/-- The function `ntohl` on a little-endian host. -/
def ntohl (v : Nat) : Nat := bswap32 v

/-- The four bytes `std::memcpy(hdr, &v, 4)` writes for a 32-bit `v` (little-endian host). -/
def store_u32 (v : Nat) : ByteVec :=
  [toByte v, toByte (v / 2 ^ 8), toByte (v / 2 ^ 16), toByte (v / 2 ^ 24)]

/-- The 32-bit value `std::memcpy(&tmp, p, 4)` reads from four bytes (little-endian host). -/
def load_u32 (b0 b1 b2 b3 : byte) : Nat :=
  b0.val + b1.val * 2 ^ 8 + b2.val * 2 ^ 16 + b3.val * 2 ^ 24

/-- The function `htonl` on a big-endian host: the identity. -/
def htonl_big (v : Nat) : Nat := v

/-- The function `ntohl` on a big-endian host: the identity. -/
def ntohl_big (v : Nat) : Nat := v

/-- The four bytes `std::memcpy(hdr, &v, 4)` writes for a 32-bit `v` on a big-endian host. -/
def store_u32_big (v : Nat) : ByteVec :=
  [toByte (v / 2 ^ 24), toByte (v / 2 ^ 16), toByte (v / 2 ^ 8), toByte v]

/-- The 32-bit value `std::memcpy(&tmp, p, 4)` reads from four bytes on a big-endian host. -/
def load_u32_big (b0 b1 b2 b3 : byte) : Nat :=
  b0.val * 2 ^ 24 + b1.val * 2 ^ 16 + b2.val * 2 ^ 8 + b3.val

/-! ## `net/encode.hpp` -/

/-- The function `encode_length_prefixed`: header `htonl(uint32_t(size))`, then the payload. -/
def encode_length_prefixed (payload : ByteVec) : ByteVec :=
  let nlen := htonl (payload.length % 2 ^ 32)
  let hdr := store_u32 nlen
  ([] ++ hdr) ++ payload

/-! ## `net/frame.hpp` -/

/-- Direction of a frame. -/
inductive Direction where
  | ClientToServer
  | ServerToClient
deriving DecidableEq, Repr

/-- A decoded frame. -/
structure Frame where
  timestamp_ns : Nat
  flow_id : Nat
  dir : Direction
  payload : ByteVec
deriving DecidableEq, Repr

/-! ## `net/stream_buffer.hpp` -/

/-- The class `StreamBuffer`. -/
structure StreamBuffer where
  buf_ : ByteVec := []
deriving DecidableEq, Repr, Inhabited

namespace StreamBuffer

/-- Append raw bytes. -/
def append (sb : StreamBuffer) (data : ByteVec) : StreamBuffer := ⟨sb.buf_ ++ data⟩

/-- Current buffered byte count. -/
def size (sb : StreamBuffer) : Nat := sb.buf_.length

/-- Peek a network-order `uint32` without consuming; `none` when fewer than 4 bytes. -/
def peek_u32 (sb : StreamBuffer) : Option Nat :=
  match sb.buf_ with
  | b0 :: b1 :: b2 :: b3 :: _ => some (ntohl (load_u32 b0 b1 b2 b3))
  | _ => none

/-- Check if `n` bytes are available. -/
def can_read (sb : StreamBuffer) (n : Nat) : Bool := decide (sb.buf_.length ≥ n)

/-- Consume `n` bytes; erasing past the end is undefined. -/
def consume (sb : StreamBuffer) (n : Nat) : Outcome StreamBuffer :=
  if n ≤ sb.buf_.length then .ok ⟨sb.buf_.drop n⟩ else .ub

/-- Take `n` bytes and consume them; copying past the end is undefined. -/
def take (sb : StreamBuffer) (n : Nat) : Outcome (ByteVec × StreamBuffer) :=
  if n ≤ sb.buf_.length then
    let out := sb.buf_.take n
    (sb.consume n).bind fun sb1 => .ok (out, sb1)
  else .ub

end StreamBuffer

/-! ## `net/frame_extractor.hpp` -/

/-- The class `FrameExtractor`. -/
structure FrameExtractor where
  sb_ : StreamBuffer := {}
deriving DecidableEq, Repr, Inhabited

namespace FrameExtractor

/-- Push a chunk. -/
def push (ex : FrameExtractor) (p : ByteVec) : FrameExtractor := ⟨ex.sb_.append p⟩

/-- The test `has_frame`: the sum `4 + len` is computed in `uint32_t`. -/
def has_frame (ex : FrameExtractor) : Bool :=
  match ex.sb_.peek_u32 with
  | none => false
  | some len => ex.sb_.can_read ((4 + len) % 2 ^ 32)

/-- The operation `pop`; with fewer than four bytes buffered `len` is uninitialised. -/
def pop (ex : FrameExtractor) (ts flow : Nat) (dir : Direction) :
    Outcome (Frame × FrameExtractor) :=
  match ex.sb_.peek_u32 with
  | none => .ub
  | some len =>
    (ex.sb_.consume 4).bind fun sb1 =>
    (sb1.take len).bind fun r =>
    .ok (⟨ts, flow, dir, r.1⟩, ⟨r.2⟩)

end FrameExtractor

/-! ## `net/frame_extractor.cpp` -/

/-- Modelled from the spec: `peek_bytes` is called by `frame_extractor.cpp` but is not
declared in `stream_buffer.hpp`; the spec's buffer can "peek first N octets without
consuming", which fails when fewer than `n` octets are buffered. -/
def StreamBuffer.peek_bytes (sb : StreamBuffer) (n : Nat) : Option ByteVec :=
  if sb.buf_.length < n then none else some (sb.buf_.take n)

/-- The out-of-line `FrameExtractor::has_frame` of `frame_extractor.cpp`; its `4 + len` is
computed in `uint32_t` as well. -/
def FrameExtractor.has_frame_cpp (ex : FrameExtractor) : Bool :=
  match ex.sb_.peek_bytes 4 with
  | some [b0, b1, b2, b3] => decide (ex.sb_.size ≥ (4 + ntohl (load_u32 b0 b1 b2 b3)) % 2 ^ 32)
  | _ => false

/-! ## `transform/transform.hpp`, `transform/chain.hpp` -/

/-- A transform: an object with private state whose `apply` mutates a frame in place. -/
structure Transform where
  σ : Type
  state : σ
  apply : σ → Frame → Frame × σ

/-- The class `TransformChain`. -/
structure TransformChain where
  chain_ : List Transform := []

namespace TransformChain

/-- The loop of `TransformChain::apply` over the transforms, in insertion order. -/
def applyList : List Transform → Frame → Frame × List Transform
  | [], f => (f, [])
  | t :: ts, f =>
    let r := t.apply t.state f
    let rs := applyList ts r.1
    (rs.1, { t with state := r.2 } :: rs.2)

/-- The method `add`. -/
def add (c : TransformChain) (t : Transform) : TransformChain := ⟨c.chain_ ++ [t]⟩

/-- The method `apply`. -/
def apply (c : TransformChain) (f : Frame) : Frame × TransformChain :=
  let r := applyList c.chain_ f
  (r.1, ⟨r.2⟩)

end TransformChain

/-! ## `src/linux_epoll_proxy.cpp`: framing bridge -/

/-- The key of a decoder in `g_extractors`. -/
def extractor_key (flow : Nat) (dir : Direction) : Nat :=
  ((flow % 2 ^ 32) <<< 1) % 2 ^ 64 ||| (if dir = Direction.ServerToClient then 1 else 0)

/-- The `while (ex.has_frame())` loop of `process_chunk_to_outq`, with an iteration budget. -/
def process_chunk_loop (ts flow_id : Nat) (dir : Direction) :
    Nat → FrameExtractor → TransformChain → List ByteVec →
      Outcome (FrameExtractor × TransformChain × List ByteVec)
  | 0, ex, chain, outq => if ex.has_frame then .fuel else .ok (ex, chain, outq)
  | n + 1, ex, chain, outq =>
    if ex.has_frame then
      (ex.pop ts flow_id dir).bind fun r =>
        let fc := chain.apply r.1
        process_chunk_loop ts flow_id dir n r.2 fc.2
          (if fc.1.payload = [] then outq else outq ++ [encode_length_prefixed fc.1.payload])
    else .ok (ex, chain, outq)

/-- The table `g_extractors`. -/
abbrev ExtractorMap := Nat → Option FrameExtractor

/-- The lookup `g_extractors[key]`, which creates a fresh decoder when none is stored. -/
def ExtractorMap.at (g : ExtractorMap) (key : Nat) : FrameExtractor := (g key).getD {}

/-- Insert-or-assign into a table. -/
def mapSet {κ : Type} [DecidableEq κ] {α : Type u} (m : κ → Option α) (k : κ) (a : α) :
    κ → Option α :=
  fun k1 => if k1 = k then some a else m k1

/-- The method `erase` of a table. -/
def mapErase {κ : Type} [DecidableEq κ] {α : Type u} (m : κ → Option α) (k : κ) :
    κ → Option α :=
  fun k1 => if k1 = k then none else m k1

/-- The function `process_chunk_to_outq`; every iteration of its loop removes at least four
bytes from the decoder, so the buffered size bounds the number of iterations. -/
def process_chunk_to_outq (g : ExtractorMap) (flow_id : Nat) (dir : Direction) (data : ByteVec)
    (ts : Nat) (chain : TransformChain) (outq : List ByteVec) :
    Outcome (ExtractorMap × TransformChain × List ByteVec) :=
  let key := extractor_key flow_id dir
  let ex := (ExtractorMap.at g key).push data
  (process_chunk_loop ts flow_id dir ex.sb_.size ex chain outq).bind fun r =>
    .ok (mapSet g key r.1, r.2.1, r.2.2)

/-! ## Decoding a chunked stream -/

/-- Pop while `has_frame()` is true and collect the payloads: the loop of
`process_chunk_to_outq` without the transform chain and the queue. -/
def pop_all (ts flow_id : Nat) (dir : Direction) :
    Nat → FrameExtractor → Outcome (List ByteVec × FrameExtractor)
  | 0, ex => if ex.has_frame then .fuel else .ok ([], ex)
  | n + 1, ex =>
    if ex.has_frame then
      (ex.pop ts flow_id dir).bind fun r =>
        (pop_all ts flow_id dir n r.2).bind fun rs => .ok (r.1.payload :: rs.1, rs.2)
    else .ok ([], ex)

/-- Push one chunk, then pop while `has_frame()` is true. -/
def feed (ts flow_id : Nat) (dir : Direction) (ex : FrameExtractor) (chunk : ByteVec) :
    Outcome (List ByteVec × FrameExtractor) :=
  let ex1 := ex.push chunk
  pop_all ts flow_id dir ex1.sb_.size ex1

/-- Feed the chunks in order, collecting the payloads of all frames popped. -/
def feed_chunks (ts flow_id : Nat) (dir : Direction) :
    FrameExtractor → List ByteVec → Outcome (List ByteVec × FrameExtractor)
  | ex, [] => .ok ([], ex)
  | ex, c :: cs =>
    (feed ts flow_id dir ex c).bind fun r =>
      (feed_chunks ts flow_id dir r.2 cs).bind fun rs => .ok (r.1 ++ rs.1, rs.2)

/-- The buffers the engine enqueues for a list of decoded payloads, in order: each frame is
passed through the chain; a non-empty result is length-prefixed, an empty one is dropped. -/
def emit_frames (ts flow_id : Nat) (dir : Direction) :
    TransformChain → List ByteVec → TransformChain × List ByteVec
  | chain, [] => (chain, [])
  | chain, P :: Ps =>
    let fc := chain.apply ⟨ts, flow_id, dir, P⟩
    let r := emit_frames ts flow_id dir fc.2 Ps
    (r.1, (if fc.1.payload = [] then [] else [encode_length_prefixed fc.1.payload]) ++ r.2)

/-- The payloads after `chain.apply`, one per decoded frame and in the order of the frames,
together with the chain as the calls leave it (each transform sees the frames in order). -/
def transformed_payloads (ts flow_id : Nat) (dir : Direction) :
    TransformChain → List ByteVec → List ByteVec × TransformChain
  | chain, [] => ([], chain)
  | chain, P :: Ps =>
    let fc := chain.apply ⟨ts, flow_id, dir, P⟩
    let r := transformed_payloads ts flow_id dir fc.2 Ps
    (fc.1.payload :: r.1, r.2)

/-- What one decoded frame adds to the outbound queue, given its payload after
`chain.apply`: nothing when it is empty, otherwise exactly one buffer, its length-prefixed
encoding. -/
def enqueued_for (T : ByteVec) : List ByteVec :=
  if T = [] then [] else [encode_length_prefixed T]

/-! ## `src/linux_epoll_proxy.cpp`: proxy state -/

/-- An epoll event mask, one flag per event bit the engine uses. -/
structure EventMask where
  EPOLLIN : Bool := false
  EPOLLOUT : Bool := false
  EPOLLRDHUP : Bool := false
  EPOLLERR : Bool := false
  EPOLLHUP : Bool := false
deriving DecidableEq, Repr, Inhabited

/-- The function `base_events`. -/
def base_events (want_write : Bool) : EventMask :=
  { EPOLLIN := true, EPOLLRDHUP := true, EPOLLERR := true, EPOLLOUT := want_write }

/-- The struct `Peer`. -/
structure Peer where
  fd : Int := -1
  want_write : Bool := false
  connecting : Bool := false
  outq : List ByteVec := []
deriving DecidableEq, Repr, Inhabited

/-- The struct `Flow`. -/
structure Flow where
  id : Nat := 0
  client : Peer := {}
  upstream : Peer := {}
  closed : Bool := false
deriving DecidableEq, Repr, Inhabited

/-- The struct `FdCtx`. -/
structure FdCtx where
  flow_id : Nat
  is_client : Bool
deriving DecidableEq, Repr, Inhabited

/-- The state of `run_epoll_proxy`: its local tables, the global `g_extractors`, the transform
chain it was given, and the interest list of its epoll instance. -/
structure Engine where
  listen_fd : Int
  flows : Nat → Option Flow := fun _ => none
  fdctx : Int → Option FdCtx := fun _ => none
  g_extractors : ExtractorMap := fun _ => none
  next_flow_id : Nat := 1
  chain : TransformChain := {}
  epoll : Int → Option EventMask := fun _ => none

/-- The call `epoll_ctl(ep, EPOLL_CTL_ADD, fd, &ev)`; it fails when `fd` is registered. -/
def epoll_ctl_add (ep : Int → Option EventMask) (fd : Int) (m : EventMask) :
    Int → Option EventMask :=
  if (ep fd).isSome then ep else mapSet ep fd m

/-- The call `epoll_ctl(ep, EPOLL_CTL_MOD, fd, &ev)`; it fails when `fd` is not registered. -/
def epoll_ctl_mod (ep : Int → Option EventMask) (fd : Int) (m : EventMask) :
    Int → Option EventMask :=
  if (ep fd).isSome then mapSet ep fd m else ep

/-- The call `epoll_ctl(ep, EPOLL_CTL_DEL, fd, nullptr)`. -/
def epoll_ctl_del (ep : Int → Option EventMask) (fd : Int) : Int → Option EventMask :=
  mapErase ep fd

/-- The peer an event on a descriptor belongs to (`src`). -/
def Flow.src (f : Flow) (is_client : Bool) : Peer := if is_client then f.client else f.upstream

/-- The opposite peer (`dst`). -/
def Flow.dst (f : Flow) (is_client : Bool) : Peer := if is_client then f.upstream else f.client

/-- Assignment through the reference `src`. -/
def Flow.setSrc (f : Flow) (is_client : Bool) (p : Peer) : Flow :=
  if is_client then { f with client := p } else { f with upstream := p }

/-- Assignment through the reference `dst`. -/
def Flow.setDst (f : Flow) (is_client : Bool) (p : Peer) : Flow :=
  if is_client then { f with upstream := p } else { f with client := p }

/-! ### Write flushing -/

/-- What one `send` call returns: a byte count `n ≥ 0`, or `-1` with `EAGAIN`/`EWOULDBLOCK`,
or `-1` with another error. -/
inductive SendResult where
  | sent (n : Nat)
  | would_block
  | error
deriving DecidableEq, Repr

/-- The function `flush_outq`, given the results of the successive `send` calls (when the
list is exhausted the kernel accepts nothing more: would-block). Returns the flag, the queue
left, the bytes handed to the kernel, and the unused send results. Erasing more bytes than
the front buffer holds is undefined. -/
def flush_outq : List ByteVec → List SendResult →
    Outcome (Bool × List ByteVec × ByteVec × List SendResult)
  | [], sends => .ok (false, [], [], sends)
  | front :: rest, sends =>
    if front = [] then flush_outq rest sends
    else
      match sends with
      | [] => .ok (true, front :: rest, [], [])
      | .would_block :: sends1 => .ok (true, front :: rest, [], sends1)
      | .error :: sends1 => .ok (false, front :: rest, [], sends1)
      | .sent n :: sends1 =>
        if n > 0 then
          if n ≤ front.length then
            if front.drop n ≠ [] then .ok (true, front.drop n :: rest, front.take n, sends1)
            else
              (flush_outq rest sends1).bind fun r =>
                .ok (r.1, r.2.1, front.take n ++ r.2.2.1, r.2.2.2)
          else .ub
        else .ok (false, front :: rest, [], sends1)

/-! ### Close with cleanup -/

/-- The function `close_flow`. The writes `f.closed = true`, `f.client.fd = -1` and
`f.upstream.fd = -1` go to the record that the final `flows.erase(it)` removes. -/
def close_flow (s : Engine) (flow_id : Nat) : Engine :=
  match s.flows flow_id with
  | none => s
  | some f =>
    if f.closed then s
    else
      let cfd := f.client.fd
      let sfd := f.upstream.fd
      let s1 : Engine :=
        if cfd ≥ 0 then
          { s with epoll := epoll_ctl_del s.epoll cfd, fdctx := mapErase s.fdctx cfd }
        else s
      let s2 : Engine :=
        if sfd ≥ 0 then
          { s1 with epoll := epoll_ctl_del s1.epoll sfd, fdctx := mapErase s1.fdctx sfd }
        else s1
      { s2 with
        g_extractors :=
          mapErase (mapErase s2.g_extractors (extractor_key flow_id Direction.ClientToServer))
            (extractor_key flow_id Direction.ServerToClient)
        flows := mapErase s2.flows flow_id }

/-! ### The readiness loop -/

/-- What one `recv` call returns: `chunk.length ≥ 0` bytes read at monotonic time `now`
(zero bytes is end of stream), or `-1` with `EAGAIN`/`EWOULDBLOCK`, or `-1` with another
error. -/
inductive RecvResult where
  | bytes (chunk : ByteVec) (now : Nat)
  | would_block
  | error
deriving DecidableEq, Repr

/-- What one round of the accept loop sees: `accept` returned `cfd`, `set_nonblocking(cfd)`
succeeded or not, and `connect_upstream` returned `sfd` with its `in_progress` flag; or
`accept` failed (with `EAGAIN` or another error, the loop ends either way). -/
inductive AcceptResult where
  | accepted (cfd : Int) (nonblocking_ok : Bool) (sfd : Int) (inprog : Bool)
  | failed
deriving DecidableEq, Repr

/-- One entry of the array filled by `epoll_wait`, together with what the system calls made
while handling it return. -/
structure Event where
  fd : Int
  ev : EventMask
  accepts : List AcceptResult := []
  so_error_ok : Bool := true
  sends : List SendResult := []
  recvs : List RecvResult := []
deriving DecidableEq, Repr

/-- A write through the reference `Flow& f = itf->second`. -/
def Engine.putFlow (s : Engine) (key : Nat) (f : Flow) : Engine :=
  { s with flows := mapSet s.flows key f }

/-- Flow creation for an accepted client `cfd` with upstream `sfd`. -/
def accept_one (s : Engine) (cfd sfd : Int) (inprog : Bool) : Engine :=
  let fid := s.next_flow_id
  let flow : Flow :=
    { id := fid, client := { fd := cfd }, upstream := { fd := sfd, connecting := inprog } }
  let flows1 := if (s.flows fid).isSome then s.flows else mapSet s.flows fid flow
  let fdctx1 := mapSet (mapSet s.fdctx cfd ⟨fid, true⟩) sfd ⟨fid, false⟩
  let ep1 := epoll_ctl_add s.epoll cfd (base_events false)
  let want_write := inprog
  let ep2 := epoll_ctl_add ep1 sfd (base_events want_write)
  let flows2 :=
    match flows1 fid with
    | some f => mapSet flows1 fid { f with upstream := { f.upstream with want_write := want_write } }
    | none => flows1
  { s with
    next_flow_id := (s.next_flow_id + 1) % 2 ^ 32
    flows := flows2
    fdctx := fdctx1
    epoll := ep2 }

/-- The accept loop on the listening descriptor. -/
def accept_loop (s : Engine) : List AcceptResult → Engine
  | [] => s
  | .failed :: _ => s
  | .accepted cfd nonblocking_ok sfd inprog :: rest =>
    if cfd < 0 then s
    else if !nonblocking_ok then accept_loop s rest
    else if sfd < 0 then accept_loop s rest
    else accept_loop (accept_one s cfd sfd inprog) rest

/-- Completion of a non-blocking connect on a writable upstream descriptor. The result is
`none` when the connect failed and the flow was closed (`continue`). -/
def connect_step (s : Engine) (key : Nat) (f : Flow) (is_client : Bool) (so_error_ok : Bool) :
    Engine × Option Flow :=
  let src := f.src is_client
  if !is_client && src.connecting then
    if !so_error_ok then (close_flow s f.id, none)
    else
      let src1 := { src with connecting := false, want_write := !src.outq.isEmpty }
      let f1 := f.setSrc is_client src1
      (({ s with epoll := epoll_ctl_mod s.epoll src1.fd (base_events src1.want_write) } :
        Engine).putFlow key f1, some f1)
  else (s, some f)

/-- The "flush queued writes" part of the writable branch. -/
def flush_step (s : Engine) (key : Nat) (f : Flow) (is_client : Bool)
    (sends : List SendResult) : Outcome (Engine × Flow) :=
  let src := f.src is_client
  if !src.outq.isEmpty then
    (flush_outq src.outq sends).bind fun r =>
      let still_pending := r.1
      let src1 := { src with outq := r.2.1, want_write := still_pending }
      let f1 := f.setSrc is_client src1
      let ep1 := epoll_ctl_mod s.epoll src1.fd (base_events (src1.want_write || src1.connecting))
      .ok (({ s with epoll := ep1 } : Engine).putFlow key f1, f1)
  else
    if src.want_write && !src.connecting then
      let src1 := { src with want_write := false }
      let f1 := f.setSrc is_client src1
      .ok (({ s with epoll := epoll_ctl_mod s.epoll src1.fd (base_events false) } :
        Engine).putFlow key f1, f1)
    else .ok (s, f)

/-- The body of the read loop for a read of `chunk.length > 0` bytes. -/
def recv_chunk (s : Engine) (key : Nat) (f : Flow) (is_client : Bool) (chunk : ByteVec)
    (now : Nat) : Outcome (Engine × Flow) :=
  let dir := if is_client then Direction.ClientToServer else Direction.ServerToClient
  let dst := f.dst is_client
  (process_chunk_to_outq s.g_extractors f.id dir chunk now s.chain dst.outq).bind fun r =>
    let dst1 := { dst with outq := r.2.2 }
    let s1 : Engine := { s with g_extractors := r.1, chain := r.2.1 }
    if !dst1.outq.isEmpty && !dst1.want_write then
      let dst2 := { dst1 with want_write := true }
      let f1 := f.setDst is_client dst2
      let ep1 := epoll_ctl_mod s1.epoll dst2.fd (base_events (true || dst2.connecting))
      .ok (({ s1 with epoll := ep1 } : Engine).putFlow key f1, f1)
    else
      let f1 := f.setDst is_client dst1
      .ok (s1.putFlow key f1, f1)

/-- The read loop, given the results of the successive `recv` calls (when the list is
exhausted the kernel has nothing more: would-block). -/
def recv_loop (s : Engine) (key : Nat) (f : Flow) (is_client : Bool) :
    List RecvResult → Outcome Engine
  | [] => .ok s
  | .bytes chunk now :: rest =>
    if chunk.length > 0 then
      (recv_chunk s key f is_client chunk now).bind fun r =>
        recv_loop r.1 key r.2 is_client rest
    else .ok (close_flow s f.id)
  | .would_block :: _ => .ok s
  | .error :: _ => .ok (close_flow s f.id)

/-- The body of the `for` loop over the ready descriptors. -/
def handle_event (s : Engine) (e : Event) : Outcome Engine :=
  if e.fd = s.listen_fd then
    if e.ev.EPOLLERR || e.ev.EPOLLHUP then .ok s else .ok (accept_loop s e.accepts)
  else
    match s.fdctx e.fd with
    | none => .ok s
    | some ctx =>
      match s.flows ctx.flow_id with
      | none => .ok s
      | some f =>
        if e.ev.EPOLLERR || e.ev.EPOLLRDHUP || e.ev.EPOLLHUP then .ok (close_flow s f.id)
        else
          let w : Outcome (Engine × Option Flow) :=
            if e.ev.EPOLLOUT then
              match connect_step s ctx.flow_id f ctx.is_client e.so_error_ok with
              | (s1, none) => .ok (s1, none)
              | (s1, some f1) =>
                (flush_step s1 ctx.flow_id f1 ctx.is_client e.sends).bind fun r =>
                  .ok (r.1, some r.2)
            else .ok (s, some f)
          w.bind fun r =>
            match r.2 with
            | none => .ok r.1
            | some f1 =>
              if e.ev.EPOLLIN then
                if !ctx.is_client && (f1.src ctx.is_client).connecting then .ok r.1
                else recv_loop r.1 ctx.flow_id f1 ctx.is_client e.recvs
              else .ok r.1

/-- One iteration of the readiness loop: the events returned by one `epoll_wait`. -/
def run_events (s : Engine) : List Event → Outcome Engine
  | [] => .ok s
  | e :: es => (handle_event s e).bind fun s1 => run_events s1 es

/-- Successive iterations of the readiness loop. -/
def run_loop (s : Engine) : List (List Event) → Outcome Engine
  | [] => .ok s
  | b :: bs => (run_events s b).bind fun s1 => run_loop s1 bs

/-- The state in which `run_epoll_proxy` enters its loop: empty tables, `next_flow_id = 1`,
no decoder, and only the listening descriptor registered. -/
def Engine.init (listen_fd : Int) (chain : TransformChain) : Engine :=
  { listen_fd := listen_fd
    chain := chain
    epoll := mapSet (fun _ => none) listen_fd { EPOLLIN := true, EPOLLERR := true } }

/-- Three iterations of the loop with listening descriptor 3: a client (descriptor 5) is
accepted and its upstream (descriptor 6) connects at once; the client sends the frame "a";
the upstream becomes writable and `send` fails with an error other than would-block. -/
def fatal_send_trace : List (List Event) :=
  [[{ fd := 3, ev := { EPOLLIN := true }, accepts := [.accepted 5 true 6 false] }],
   [{ fd := 5, ev := { EPOLLIN := true }, recvs := [.bytes [0, 0, 0, 1, 97] 10] }],
   [{ fd := 6, ev := { EPOLLOUT := true }, sends := [.error] }]]

/-- A state reached from `Engine.init 3` by one accept event with two clients: flow 1 has
descriptors 5 (client) and 6 (upstream, connected), flow 2 has descriptors 7 (client) and 8
(upstream, connect in progress). -/
def two_flow_state : Engine :=
  accept_loop (Engine.init 3 {}) [.accepted 5 true 6 false, .accepted 7 true 8 true]

/-! ## What the kernel may answer to `send` -/

/-- The send results stay within the offer: every `send` reached while flushing the queue
accepts between 1 and the offered number of bytes (the length of the front buffer at that
moment), or reports would-block or an error. Results that are never reached are free. -/
def sends_within_offer : List ByteVec → List SendResult → Bool
  | [], _ => true
  | front :: rest, sends =>
    if front = [] then sends_within_offer rest sends
    else
      match sends with
      | [] => true
      | .would_block :: _ => true
      | .error :: _ => true
      | .sent n :: sends1 =>
        decide (1 ≤ n) && decide (n ≤ front.length) &&
          (if n = front.length then sends_within_offer rest sends1 else true)

/-- The send results with which the kernel accepts every non-empty buffer of `done` whole,
one `send` per buffer. -/
def full_sends (done : List ByteVec) : List SendResult :=
  (done.filter fun b => b ≠ []).map fun b => SendResult.sent b.length

/-! ## Flow-id wrap-around scenario -/

/-- Two iterations of the loop with listening descriptor 3: a client (descriptor 7) is
accepted and its upstream (descriptor 8) connects at once; then the client hangs up. -/
def wrap_cycle : List (List Event) :=
  [[{ fd := 3, ev := { EPOLLIN := true }, accepts := [.accepted 7 true 8 false] }],
   [{ fd := 7, ev := { EPOLLIN := true, EPOLLRDHUP := true } }]]

/-- A long-lived flow and `n` short-lived ones: a first client (descriptors 5 and 6) is
accepted and stays; `n` further clients come and go (`wrap_cycle`, the kernel handing out
the freed descriptors 7 and 8 again each time); one more client is accepted; finally the
first client hangs up. -/
def wrap_trace (n : Nat) : List (List Event) :=
  [[{ fd := 3, ev := { EPOLLIN := true }, accepts := [.accepted 5 true 6 false] }]]
    ++ (List.replicate n wrap_cycle).flatten
    ++ [[{ fd := 3, ev := { EPOLLIN := true }, accepts := [.accepted 7 true 8 false] }],
        [{ fd := 5, ev := { EPOLLIN := true, EPOLLRDHUP := true } }]]

/-- The run `wrap_trace n` without its last iteration: the long-lived flow 1 (descriptors 5
and 6) is still open, `n` short-lived flows have come and gone, and one more client
(descriptors 7 and 8) has just been accepted. -/
def wrap_live_trace (n : Nat) : List (List Event) :=
  [[{ fd := 3, ev := { EPOLLIN := true }, accepts := [.accepted 5 true 6 false] }]]
    ++ (List.replicate n wrap_cycle).flatten
    ++ [[{ fd := 3, ev := { EPOLLIN := true }, accepts := [.accepted 7 true 8 false] }]]

/-- Three iterations of the loop with listening descriptor 3: two clients are accepted (flow
1 on descriptors 5 and 6, flow 2 on descriptors 7 and 8); the client of flow 2 sends the frame
"b" and two bytes of a next header; the client of flow 1 sends the four bytes
`FF FF FF FF`. -/
def cross_flow_trace : List (List Event) :=
  [[{ fd := 3, ev := { EPOLLIN := true },
      accepts := [.accepted 5 true 6 false, .accepted 7 true 8 false] }],
   [{ fd := 7, ev := { EPOLLIN := true }, recvs := [.bytes [0, 0, 0, 1, 98, 0, 0] 10] }],
   [{ fd := 5, ev := { EPOLLIN := true }, recvs := [.bytes [255, 255, 255, 255] 11] }]]

/-! ## Table consistency -/

/-- The three tables are mutually consistent, and no flow id has been handed out twice:
each descriptor-table entry `(flow id, side)` sits at the descriptor of that side of a flow
in the flow table; each flow is stored under its own id, is open, and has both descriptors
in the descriptor table, mapped to its id; each decoder belongs to a flow in the flow table;
and every id in use is below the counter `next_flow_id`, which has not wrapped. -/
structure TablesConsistent (s : Engine) : Prop where
  fd_names_flow : ∀ fd ctx, s.fdctx fd = some ctx →
    ∃ f, s.flows ctx.flow_id = some f ∧
      fd = (if ctx.is_client then f.client.fd else f.upstream.fd)
  flow_has_fds : ∀ fid f, s.flows fid = some f →
    f.id = fid ∧ f.closed = false ∧ 0 ≤ f.client.fd ∧ 0 ≤ f.upstream.fd ∧
      s.fdctx f.client.fd = some ⟨fid, true⟩ ∧ s.fdctx f.upstream.fd = some ⟨fid, false⟩
  decoder_has_flow : ∀ key ex, s.g_extractors key = some ex →
    ∃ fid dir, key = extractor_key fid dir ∧ (s.flows fid).isSome
  ids_below_next : ∀ fid f, s.flows fid = some f → fid < s.next_flow_id
  next_lt : s.next_flow_id < 2 ^ 32

/-- What the kernel and the counter allow in one accept loop: every client for which a flow
is created comes with two distinct descriptors that are not in use (not in the descriptor
table), and the 32-bit counter `next_flow_id` does not wrap. -/
def accepts_valid : Engine → List AcceptResult → Prop
  | _, [] => True
  | _, .failed :: _ => True
  | s, .accepted cfd nonblocking_ok sfd inprog :: rest =>
    if cfd < 0 then True
    else if !nonblocking_ok then accepts_valid s rest
    else if sfd < 0 then accepts_valid s rest
    else
      (s.fdctx cfd = none ∧ s.fdctx sfd = none ∧ cfd ≠ sfd ∧ s.next_flow_id + 1 < 2 ^ 32) ∧
        accepts_valid (accept_one s cfd sfd inprog) rest

/-- The events of one iteration respect `accepts_valid`, each in the state it is handled in. -/
def events_valid : Engine → List Event → Prop
  | _, [] => True
  | s, e :: es =>
    (e.fd = s.listen_fd → accepts_valid s e.accepts) ∧
      ∀ s1, handle_event s e = .ok s1 → events_valid s1 es

/-- The iterations of a run respect `accepts_valid`. -/
def trace_valid : Engine → List (List Event) → Prop
  | _, [] => True
  | s, b :: bs => events_valid s b ∧ ∀ s1, run_events s b = .ok s1 → trace_valid s1 bs

/-! ## Example transform -/

/-- A transform that appends the letter "x" (byte 120) to the payload. -/
def appendX : Transform where
  σ := Unit
  state := ()
  apply := fun _ f => ({ f with payload := f.payload ++ [120] }, ())

/-! ## Theorems: byte order -/

@[simp] theorem toByte_val (n : Nat) : (toByte n).val = n % 256 := rfl

theorem Outcome.bind_ok {α : Type u} {β : Type v} (a : α) (f : α → Outcome β) :
    (Outcome.ok a).bind f = f a := rfl

theorem Outcome.bind_ub {α : Type u} {β : Type v} (f : α → Outcome β) :
    (Outcome.ub : Outcome α).bind f = Outcome.ub := rfl

theorem Outcome.bind_fuel {α : Type u} {β : Type v} (f : α → Outcome β) :
    (Outcome.fuel : Outcome α).bind f = Outcome.fuel := rfl

theorem bswap32_bytes (a0 a1 a2 a3 : Nat) (h0 : a0 < 256) (h1 : a1 < 256) (h2 : a2 < 256)
    (h3 : a3 < 256) :
    bswap32 (a0 + a1 * 2 ^ 8 + a2 * 2 ^ 16 + a3 * 2 ^ 24)
      = a0 * 2 ^ 24 + a1 * 2 ^ 16 + a2 * 2 ^ 8 + a3 := by
  have e0 : (a0 + a1 * 2 ^ 8 + a2 * 2 ^ 16 + a3 * 2 ^ 24) % 256 = a0 := by omega
  have e1 : (a0 + a1 * 2 ^ 8 + a2 * 2 ^ 16 + a3 * 2 ^ 24) / 2 ^ 8 % 256 = a1 := by omega
  have e2 : (a0 + a1 * 2 ^ 8 + a2 * 2 ^ 16 + a3 * 2 ^ 24) / 2 ^ 16 % 256 = a2 := by omega
  have e3 : (a0 + a1 * 2 ^ 8 + a2 * 2 ^ 16 + a3 * 2 ^ 24) / 2 ^ 24 % 256 = a3 := by omega
  unfold bswap32
  rw [e0, e1, e2, e3]

/-- Reading four bytes with `memcpy` and `ntohl` yields their big-endian value. -/
theorem ntohl_load_u32 (b0 b1 b2 b3 : byte) :
    ntohl (load_u32 b0 b1 b2 b3)
      = b0.val * 2 ^ 24 + b1.val * 2 ^ 16 + b2.val * 2 ^ 8 + b3.val := by
  unfold ntohl load_u32
  exact bswap32_bytes _ _ _ _ b0.isLt b1.isLt b2.isLt b3.isLt

/-- Host independence of header reading: a big-endian host reads the same value. -/
theorem ntohl_load_u32_host (b0 b1 b2 b3 : byte) :
    ntohl (load_u32 b0 b1 b2 b3) = ntohl_big (load_u32_big b0 b1 b2 b3) :=
  ntohl_load_u32 b0 b1 b2 b3

theorem toByte_congr {a b : Nat} (h : a % 256 = b % 256) : toByte a = toByte b :=
  Fin.ext h

theorem bswap32_digits (a0 a1 a2 a3 : Nat) (h0 : a0 < 256) (h1 : a1 < 256) (h2 : a2 < 256)
    (h3 : a3 < 256) :
    (a0 * 2 ^ 24 + a1 * 2 ^ 16 + a2 * 2 ^ 8 + a3) % 256 = a3 ∧
    (a0 * 2 ^ 24 + a1 * 2 ^ 16 + a2 * 2 ^ 8 + a3) / 2 ^ 8 % 256 = a2 ∧
    (a0 * 2 ^ 24 + a1 * 2 ^ 16 + a2 * 2 ^ 8 + a3) / 2 ^ 16 % 256 = a1 ∧
    (a0 * 2 ^ 24 + a1 * 2 ^ 16 + a2 * 2 ^ 8 + a3) / 2 ^ 24 % 256 = a0 := by
  refine ⟨?_, ?_, ?_, ?_⟩ <;> omega

/-- Writing `htonl v` with `memcpy` yields the big-endian bytes of `v`. -/
theorem store_u32_htonl (v : Nat) :
    store_u32 (htonl v)
      = [toByte (v / 2 ^ 24), toByte (v / 2 ^ 16), toByte (v / 2 ^ 8), toByte v] := by
  have m0 : v % 256 < 256 := Nat.mod_lt _ (by decide)
  have m1 : v / 2 ^ 8 % 256 < 256 := Nat.mod_lt _ (by decide)
  have m2 : v / 2 ^ 16 % 256 < 256 := Nat.mod_lt _ (by decide)
  have m3 : v / 2 ^ 24 % 256 < 256 := Nat.mod_lt _ (by decide)
  obtain ⟨f0, f1, f2, f3⟩ := bswap32_digits _ _ _ _ m0 m1 m2 m3
  have hb : htonl v = (v % 256) * 2 ^ 24 + (v / 2 ^ 8 % 256) * 2 ^ 16
      + (v / 2 ^ 16 % 256) * 2 ^ 8 + (v / 2 ^ 24 % 256) := rfl
  unfold store_u32
  rw [toByte_congr (a := htonl v) (b := v / 2 ^ 24) (by rw [hb, f0]),
    toByte_congr (a := htonl v / 2 ^ 8) (b := v / 2 ^ 16) (by rw [hb, f1]),
    toByte_congr (a := htonl v / 2 ^ 16) (b := v / 2 ^ 8) (by rw [hb, f2]),
    toByte_congr (a := htonl v / 2 ^ 24) (b := v) (by rw [hb, f3])]

/-- Host independence of header writing: a big-endian host writes the same bytes. -/
theorem store_u32_htonl_host (v : Nat) :
    store_u32 (htonl v) = store_u32_big (htonl_big v) :=
  store_u32_htonl v

/-- The encoder output, byte by byte. -/
theorem encode_length_prefixed_eq (payload : ByteVec) :
    encode_length_prefixed payload
      = toByte (payload.length % 2 ^ 32 / 2 ^ 24) :: toByte (payload.length % 2 ^ 32 / 2 ^ 16)
        :: toByte (payload.length % 2 ^ 32 / 2 ^ 8) :: toByte (payload.length % 2 ^ 32)
        :: payload := by
  unfold encode_length_prefixed
  simp only [store_u32_htonl, List.nil_append, List.cons_append]

theorem encode_length_prefixed_length (payload : ByteVec) :
    (encode_length_prefixed payload).length = payload.length + 4 := by
  rw [encode_length_prefixed_eq]; simp

/-- The header of an encoded payload, read back by `peek_u32`, is the payload length. -/
theorem peek_u32_encode_append (payload rest : ByteVec) :
    StreamBuffer.peek_u32 ⟨encode_length_prefixed payload ++ rest⟩
      = some (payload.length % 2 ^ 32) := by
  rw [encode_length_prefixed_eq]
  simp only [StreamBuffer.peek_u32, List.cons_append, ntohl_load_u32, toByte_val]
  congr 1
  omega

/-! ## Theorems: the codec -/

theorem has_frame_encode_append (P rest : ByteVec) :
    FrameExtractor.has_frame ⟨⟨encode_length_prefixed P ++ rest⟩⟩ = true := by
  unfold FrameExtractor.has_frame
  simp only [peek_u32_encode_append, StreamBuffer.can_read, List.length_append,
    encode_length_prefixed_length, decide_eq_true_eq]
  omega

theorem consume_of_le (sb : StreamBuffer) (n : Nat) (h : n ≤ sb.buf_.length) :
    sb.consume n = .ok ⟨sb.buf_.drop n⟩ := by
  unfold StreamBuffer.consume
  rw [if_pos h]

theorem consume_of_gt (sb : StreamBuffer) (n : Nat) (h : sb.buf_.length < n) :
    sb.consume n = .ub := by
  unfold StreamBuffer.consume
  rw [if_neg (by omega)]

theorem take_of_le (sb : StreamBuffer) (n : Nat) (h : n ≤ sb.buf_.length) :
    sb.take n = .ok (sb.buf_.take n, ⟨sb.buf_.drop n⟩) := by
  unfold StreamBuffer.take
  rw [if_pos h, consume_of_le sb n h]
  rfl

theorem take_of_gt (sb : StreamBuffer) (n : Nat) (h : sb.buf_.length < n) :
    sb.take n = .ub := by
  unfold StreamBuffer.take
  rw [if_neg (by omega)]

theorem pop_encode_append (P rest : ByteVec) (hP : P.length < 2 ^ 32) (ts flow : Nat)
    (dir : Direction) :
    FrameExtractor.pop ⟨⟨encode_length_prefixed P ++ rest⟩⟩ ts flow dir
      = .ok (⟨ts, flow, dir, P⟩, ⟨⟨rest⟩⟩) := by
  unfold FrameExtractor.pop
  have h4 : 4 ≤ (encode_length_prefixed P ++ rest).length := by
    rw [List.length_append, encode_length_prefixed_length]; omega
  have hd : (encode_length_prefixed P ++ rest).drop 4 = P ++ rest := by
    rw [encode_length_prefixed_eq]; rfl
  have hmod : P.length % 2 ^ 32 = P.length := Nat.mod_eq_of_lt hP
  have hle : P.length ≤ (P ++ rest).length := by rw [List.length_append]; omega
  simp only [peek_u32_encode_append, hmod]
  rw [consume_of_le _ 4 h4, Outcome.bind_ok]
  simp only [hd]
  rw [take_of_le _ _ hle, Outcome.bind_ok]
  simp only [List.take_left', List.drop_left']

/-- The test `has_frame` in terms of the buffer: four header bytes are present and the
buffered length reaches `(4 + L) % 2^32`, where `L` is their big-endian value. -/
theorem has_frame_iff (ex : FrameExtractor) :
    ex.has_frame = true ↔
      ∃ b0 b1 b2 b3 tl, ex.sb_.buf_ = b0 :: b1 :: b2 :: b3 :: tl ∧
        (4 + (b0.val * 2 ^ 24 + b1.val * 2 ^ 16 + b2.val * 2 ^ 8 + b3.val)) % 2 ^ 32
          ≤ ex.sb_.buf_.length := by
  obtain ⟨⟨buf⟩⟩ := ex
  unfold FrameExtractor.has_frame StreamBuffer.peek_u32
  match buf with
  | [] => simp
  | [_] => simp
  | [_, _] => simp
  | [_, _, _] => simp
  | b0 :: b1 :: b2 :: b3 :: tl =>
    simp only [StreamBuffer.can_read, ntohl_load_u32, decide_eq_true_eq, List.cons.injEq]
    constructor
    · intro h
      exact ⟨b0, b1, b2, b3, tl, ⟨rfl, rfl, rfl, rfl, rfl⟩, h⟩
    · rintro ⟨c0, c1, c2, c3, tl1, ⟨rfl, rfl, rfl, rfl, rfl⟩, h⟩
      exact h

/-- The two versions of `has_frame` (header and `.cpp`) compute the same test. -/
theorem has_frame_cpp_eq (ex : FrameExtractor) : ex.has_frame_cpp = ex.has_frame := by
  obtain ⟨⟨buf⟩⟩ := ex
  match buf with
  | [] => rfl
  | [_] => rfl
  | [_, _] => rfl
  | [_, _, _] => rfl
  | b0 :: b1 :: b2 :: b3 :: tl =>
    have h4 : ¬ (b0 :: b1 :: b2 :: b3 :: tl).length < 4 := by
      simp only [List.length_cons]; omega
    simp only [FrameExtractor.has_frame_cpp, FrameExtractor.has_frame, StreamBuffer.peek_bytes,
      StreamBuffer.peek_u32, StreamBuffer.can_read, StreamBuffer.size, if_neg h4]
    rfl

/-- With a header value below `2^32 - 4` the sum `4 + L` does not wrap, and `has_frame`
is the test "at least `4 + L` bytes are buffered". -/
theorem has_frame_iff_of_small (b0 b1 b2 b3 : byte) (tl : ByteVec)
    (hL : b0.val * 2 ^ 24 + b1.val * 2 ^ 16 + b2.val * 2 ^ 8 + b3.val < 2 ^ 32 - 4) :
    FrameExtractor.has_frame ⟨⟨b0 :: b1 :: b2 :: b3 :: tl⟩⟩ = true ↔
      4 + (b0.val * 2 ^ 24 + b1.val * 2 ^ 16 + b2.val * 2 ^ 8 + b3.val)
        ≤ (b0 :: b1 :: b2 :: b3 :: tl).length := by
  rw [has_frame_iff]
  have hmod : (4 + (b0.val * 2 ^ 24 + b1.val * 2 ^ 16 + b2.val * 2 ^ 8 + b3.val)) % 2 ^ 32
      = 4 + (b0.val * 2 ^ 24 + b1.val * 2 ^ 16 + b2.val * 2 ^ 8 + b3.val) :=
    Nat.mod_eq_of_lt (by omega)
  constructor
  · rintro ⟨c0, c1, c2, c3, tl1, heq, h⟩
    simp only [List.cons.injEq] at heq
    obtain ⟨rfl, rfl, rfl, rfl, rfl⟩ := heq
    rw [hmod] at h
    exact h
  · intro h
    exact ⟨b0, b1, b2, b3, tl, rfl, by rw [hmod]; exact h⟩

/-! ## Theorems: the pop loop -/

/-- Big-endian value of four header bytes. -/
theorem pop_cons4 (b0 b1 b2 b3 : byte) (tl : ByteVec) (ts flow : Nat) (dir : Direction) :
    FrameExtractor.pop ⟨⟨b0 :: b1 :: b2 :: b3 :: tl⟩⟩ ts flow dir
      = if b0.val * 2 ^ 24 + b1.val * 2 ^ 16 + b2.val * 2 ^ 8 + b3.val ≤ tl.length then
          .ok (⟨ts, flow, dir,
              tl.take (b0.val * 2 ^ 24 + b1.val * 2 ^ 16 + b2.val * 2 ^ 8 + b3.val)⟩,
            ⟨⟨tl.drop (b0.val * 2 ^ 24 + b1.val * 2 ^ 16 + b2.val * 2 ^ 8 + b3.val)⟩⟩)
        else .ub := by
  unfold FrameExtractor.pop
  simp only [StreamBuffer.peek_u32, ntohl_load_u32]
  rw [consume_of_le _ 4 (by simp), Outcome.bind_ok]
  simp only [List.drop_succ_cons, List.drop_zero]
  split
  · rename_i h
    rw [take_of_le _ _ h, Outcome.bind_ok]
  · rename_i h
    rw [take_of_gt _ _ (by simpa using h), Outcome.bind_ub]

/-- A successful `pop` removes at least the four header bytes. -/
theorem pop_size_lt (ex : FrameExtractor) (ts flow : Nat) (dir : Direction) (f : Frame)
    (ex1 : FrameExtractor) (h : ex.pop ts flow dir = .ok (f, ex1)) :
    ex1.sb_.size + 4 ≤ ex.sb_.size := by
  obtain ⟨⟨buf⟩⟩ := ex
  match buf, h with
  | [], h => simp [FrameExtractor.pop, StreamBuffer.peek_u32] at h
  | [_], h => simp [FrameExtractor.pop, StreamBuffer.peek_u32] at h
  | [_, _], h => simp [FrameExtractor.pop, StreamBuffer.peek_u32] at h
  | [_, _, _], h => simp [FrameExtractor.pop, StreamBuffer.peek_u32] at h
  | b0 :: b1 :: b2 :: b3 :: tl, h =>
    rw [pop_cons4] at h
    split at h
    · simp only [Outcome.ok.injEq, Prod.mk.injEq] at h
      obtain ⟨-, rfl⟩ := h
      simp [StreamBuffer.size]
    · cases h

/-- The operation `pop` has no loop: it never reports an exhausted budget. -/
theorem pop_ne_fuel (ex : FrameExtractor) (ts flow : Nat) (dir : Direction) :
    ex.pop ts flow dir ≠ .fuel := by
  obtain ⟨⟨buf⟩⟩ := ex
  match buf with
  | [] => simp [FrameExtractor.pop, StreamBuffer.peek_u32]
  | [_] => simp [FrameExtractor.pop, StreamBuffer.peek_u32]
  | [_, _] => simp [FrameExtractor.pop, StreamBuffer.peek_u32]
  | [_, _, _] => simp [FrameExtractor.pop, StreamBuffer.peek_u32]
  | b0 :: b1 :: b2 :: b3 :: tl =>
    rw [pop_cons4]
    split <;> simp

/-- The payload and the remaining buffer of `pop` do not depend on the frame metadata. -/
theorem pop_metadata (ex : FrameExtractor) (ts flow ts1 flow1 : Nat) (dir dir1 : Direction) :
    ex.pop ts1 flow1 dir1
      = (ex.pop ts flow dir).bind fun r => .ok (⟨ts1, flow1, dir1, r.1.payload⟩, r.2) := by
  unfold FrameExtractor.pop
  cases ex.sb_.peek_u32 with
  | none => rfl
  | some len =>
    simp only
    cases ex.sb_.consume 4 with
    | ok sb1 =>
      simp only [Outcome.bind_ok]
      cases sb1.take len with
      | ok r => rfl
      | ub => rfl
      | fuel => rfl
    | ub => rfl
    | fuel => rfl

/-- A decoder without a complete frame holds fewer than four bytes or an unfinished frame;
in particular an empty decoder has no frame. -/
theorem has_frame_nil : FrameExtractor.has_frame ⟨⟨[]⟩⟩ = false := rfl

/-- Budget: any two budgets of at least the buffered size give the same run of `pop_all`. -/
theorem pop_all_fuel_irrel (ts flow : Nat) (dir : Direction) :
    ∀ (n m : Nat) (ex : FrameExtractor), ex.sb_.size ≤ n → ex.sb_.size ≤ m →
      pop_all ts flow dir n ex = pop_all ts flow dir m ex := by
  intro n
  induction n with
  | zero =>
    intro m ex hn _
    have hf : ex.has_frame = false := by
      cases hh : ex.has_frame with
      | false => rfl
      | true =>
        obtain ⟨b0, b1, b2, b3, tl, hb, -⟩ := (has_frame_iff ex).1 hh
        simp [StreamBuffer.size, hb] at hn
    cases m with
    | zero => rfl
    | succ m => simp [pop_all, hf]
  | succ n ih =>
    intro m ex hn hm
    cases hh : ex.has_frame with
    | false =>
      cases m with
      | zero => simp [pop_all, hh]
      | succ m => simp [pop_all, hh]
    | true =>
      obtain ⟨b0, b1, b2, b3, tl, hb, -⟩ := (has_frame_iff ex).1 hh
      cases m with
      | zero => simp [StreamBuffer.size, hb] at hm
      | succ m =>
        simp only [pop_all, hh, if_true]
        cases hp : ex.pop ts flow dir with
        | ok r =>
          have hsz := pop_size_lt ex ts flow dir r.1 r.2 hp
          simp only [Outcome.bind_ok]
          rw [ih m r.2 (by omega) (by omega)]
        | ub => rfl
        | fuel => rfl

/-- Budget: with a budget of at least the buffered size `pop_all` never runs out. -/
theorem pop_all_ne_fuel (ts flow : Nat) (dir : Direction) :
    ∀ (n : Nat) (ex : FrameExtractor), ex.sb_.size ≤ n →
      pop_all ts flow dir n ex ≠ .fuel := by
  intro n
  induction n with
  | zero =>
    intro ex hn
    cases hh : ex.has_frame with
    | false => simp [pop_all, hh]
    | true =>
      obtain ⟨b0, b1, b2, b3, tl, hb, -⟩ := (has_frame_iff ex).1 hh
      simp [StreamBuffer.size, hb] at hn
  | succ n ih =>
    intro ex hn
    cases hh : ex.has_frame with
    | false => simp [pop_all, hh]
    | true =>
      simp only [pop_all, hh, if_true]
      cases hp : ex.pop ts flow dir with
      | ok r =>
        have hsz := pop_size_lt ex ts flow dir r.1 r.2 hp
        have := ih r.2 (by omega)
        simp only [Outcome.bind_ok]
        cases hq : pop_all ts flow dir n r.2 with
        | ok rs => simp [Outcome.bind]
        | ub => simp [Outcome.bind]
        | fuel => exact absurd hq this
      | ub => simp [Outcome.bind]
      | fuel => exact absurd hp (pop_ne_fuel ex ts flow dir)

theorem Outcome.bind_eta {α : Type u} {β : Type v} (x : Outcome (α × β)) :
    (x.bind fun r => .ok (r.1, r.2)) = x := by
  cases x <;> rfl

theorem Outcome.bind_assoc {α : Type u} {β : Type v} {γ : Type w} (x : Outcome α)
    (f : α → Outcome β) (g : β → Outcome γ) :
    (x.bind f).bind g = x.bind fun a => (f a).bind g := by
  cases x <;> rfl

/-- The frame returned by `pop` carries the metadata it was given. -/
theorem pop_frame_eq (ex : FrameExtractor) (ts flow : Nat) (dir : Direction)
    (r : Frame × FrameExtractor) (h : ex.pop ts flow dir = .ok r) :
    r.1 = ⟨ts, flow, dir, r.1.payload⟩ := by
  rw [pop_metadata ex ts flow ts flow dir dir] at h
  cases hp : ex.pop ts flow dir with
  | ok r1 =>
    rw [hp, Outcome.bind_ok] at h
    cases h
    rfl
  | ub => rw [hp] at h; cases h
  | fuel => rw [hp] at h; cases h

/-- The loop of `process_chunk_to_outq` is `pop_all` followed by `emit_frames`: frames are
popped, transformed and enqueued in arrival order behind the existing queue. -/
theorem process_chunk_loop_eq (ts flow : Nat) (dir : Direction) :
    ∀ (n : Nat) (ex : FrameExtractor) (chain : TransformChain) (outq : List ByteVec),
      process_chunk_loop ts flow dir n ex chain outq
        = (pop_all ts flow dir n ex).bind fun r =>
            .ok (r.2, (emit_frames ts flow dir chain r.1).1,
              outq ++ (emit_frames ts flow dir chain r.1).2) := by
  intro n
  induction n with
  | zero =>
    intro ex chain outq
    cases hh : ex.has_frame <;> simp [process_chunk_loop, pop_all, hh, Outcome.bind, emit_frames]
  | succ n ih =>
    intro ex chain outq
    cases hh : ex.has_frame with
    | false => simp [process_chunk_loop, pop_all, hh, Outcome.bind, emit_frames]
    | true =>
      simp only [process_chunk_loop, pop_all, hh, if_true]
      cases hp : ex.pop ts flow dir with
      | ok r =>
        have hr := pop_frame_eq ex ts flow dir r hp
        simp only [Outcome.bind_ok]
        rw [ih, Outcome.bind_assoc]
        congr 1
        funext rs
        simp only [Outcome.bind_ok, emit_frames]
        rw [← hr]
        by_cases he : (chain.apply r.1).1.payload = [] <;> simp [he]
      | ub => rfl
      | fuel => rfl

/-- One complete frame at the head of the buffer is popped first. -/
theorem pop_all_encode_append (ts flow : Nat) (dir : Direction) (P rest : ByteVec)
    (hP : P.length < 2 ^ 32) (n m : Nat) (hn : (encode_length_prefixed P ++ rest).length ≤ n)
    (hm : rest.length ≤ m) :
    pop_all ts flow dir n ⟨⟨encode_length_prefixed P ++ rest⟩⟩
      = (pop_all ts flow dir m ⟨⟨rest⟩⟩).bind fun rs => .ok (P :: rs.1, rs.2) := by
  have hlen : (encode_length_prefixed P ++ rest).length = P.length + 4 + rest.length := by
    rw [List.length_append, encode_length_prefixed_length]
  cases n with
  | zero => omega
  | succ n =>
    simp only [pop_all, has_frame_encode_append, if_true, pop_encode_append P rest hP,
      Outcome.bind_ok]
    rw [pop_all_fuel_irrel ts flow dir n m ⟨⟨rest⟩⟩ (by simp only [StreamBuffer.size]; omega)
      (by simpa [StreamBuffer.size] using hm)]

/-- A buffer made of complete frames followed by a remainder without a complete frame is
popped into exactly those frames, in order, and the remainder stays buffered. -/
theorem pop_all_frames (ts flow : Nat) (dir : Direction) (rest : ByteVec)
    (hrest : FrameExtractor.has_frame ⟨⟨rest⟩⟩ = false) :
    ∀ (Ps : List ByteVec), (∀ P ∈ Ps, P.length < 2 ^ 32) → ∀ n : Nat,
      ((Ps.map encode_length_prefixed).flatten ++ rest).length ≤ n →
      pop_all ts flow dir n ⟨⟨(Ps.map encode_length_prefixed).flatten ++ rest⟩⟩
        = .ok (Ps, ⟨⟨rest⟩⟩) := by
  intro Ps
  induction Ps with
  | nil =>
    intro _ n _
    cases n <;> simp [pop_all, hrest]
  | cons P Ps ih =>
    intro hPs n hn
    have hP : P.length < 2 ^ 32 := hPs P (List.mem_cons_self _ _)
    simp only [List.map_cons, List.flatten_cons, List.append_assoc] at hn ⊢
    rw [pop_all_encode_append ts flow dir P _ hP n n hn
      (by rw [List.length_append] at hn; omega),
      ih (fun Q hQ => hPs Q (List.mem_cons_of_mem _ hQ)) n
        (by rw [List.length_append] at hn; omega)]
    rfl

/-- Appending bytes behind a buffer keeps a complete frame complete. -/
theorem has_frame_append (b c : ByteVec) (h : FrameExtractor.has_frame ⟨⟨b⟩⟩ = true) :
    FrameExtractor.has_frame ⟨⟨b ++ c⟩⟩ = true := by
  obtain ⟨b0, b1, b2, b3, tl, hb, hle⟩ := (has_frame_iff _).1 h
  simp only at hb hle
  subst hb
  refine (has_frame_iff _).2 ⟨b0, b1, b2, b3, tl ++ c, rfl, ?_⟩
  simp only [List.cons_append, List.length_cons, List.length_append] at hle ⊢
  omega

/-- Streaming step: what was popped from a buffer is popped again, first and unchanged,
after more bytes are appended; decoding then continues on the remainder plus the new bytes. -/
theorem pop_all_append (ts flow : Nat) (dir : Direction) (c : ByteVec) :
    ∀ (n : Nat) (b : ByteVec) (fs : List ByteVec) (r : ByteVec),
      pop_all ts flow dir n ⟨⟨b⟩⟩ = .ok (fs, ⟨⟨r⟩⟩) →
      ∀ (m m1 : Nat), (b ++ c).length ≤ m → (r ++ c).length ≤ m1 →
        pop_all ts flow dir m ⟨⟨b ++ c⟩⟩
          = (pop_all ts flow dir m1 ⟨⟨r ++ c⟩⟩).bind fun rs => .ok (fs ++ rs.1, rs.2) := by
  have base : ∀ (b : ByteVec) (fs : List ByteVec) (r : ByteVec),
      (Outcome.ok (([] : List ByteVec), (⟨⟨b⟩⟩ : FrameExtractor))) = .ok (fs, ⟨⟨r⟩⟩) →
      ∀ (m m1 : Nat), (b ++ c).length ≤ m → (r ++ c).length ≤ m1 →
        pop_all ts flow dir m ⟨⟨b ++ c⟩⟩
          = (pop_all ts flow dir m1 ⟨⟨r ++ c⟩⟩).bind fun rs => .ok (fs ++ rs.1, rs.2) := by
    intro b fs r h m m1 hm hm1
    simp only [Outcome.ok.injEq, Prod.mk.injEq, FrameExtractor.mk.injEq,
      StreamBuffer.mk.injEq] at h
    obtain ⟨rfl, rfl⟩ := h
    simp only [List.nil_append]
    rw [Outcome.bind_eta]
    exact pop_all_fuel_irrel ts flow dir m m1 _ hm hm1
  intro n
  induction n with
  | zero =>
    intro b fs r h
    cases hh : FrameExtractor.has_frame ⟨⟨b⟩⟩ with
    | false =>
      simp only [pop_all, hh] at h
      exact base b fs r h
    | true => simp [pop_all, hh] at h
  | succ n ih =>
    intro b fs r h m m1 hm hm1
    cases hh : FrameExtractor.has_frame ⟨⟨b⟩⟩ with
    | false =>
      simp only [pop_all, hh] at h
      exact base b fs r h m m1 hm hm1
    | true =>
      obtain ⟨b0, b1, b2, b3, tl, hb, -⟩ := (has_frame_iff _).1 hh
      simp only at hb
      subst hb
      have hh2 := has_frame_append _ c hh
      simp only [pop_all, hh, if_true, pop_cons4] at h
      split at h
      · rename_i hL
        simp only [Outcome.bind_ok] at h
        cases hq : pop_all ts flow dir n
            ⟨⟨tl.drop (b0.val * 2 ^ 24 + b1.val * 2 ^ 16 + b2.val * 2 ^ 8 + b3.val)⟩⟩ with
        | ok rs =>
          obtain ⟨fs1, ⟨⟨r1⟩⟩⟩ := rs
          rw [hq, Outcome.bind_ok] at h
          simp only [Outcome.ok.injEq, Prod.mk.injEq, FrameExtractor.mk.injEq,
            StreamBuffer.mk.injEq] at h
          obtain ⟨rfl, rfl⟩ := h
          cases m with
          | zero => simp at hm
          | succ m =>
            have hL2 : b0.val * 2 ^ 24 + b1.val * 2 ^ 16 + b2.val * 2 ^ 8 + b3.val
                ≤ (tl ++ c).length := by rw [List.length_append]; omega
            have hm2 : (tl.drop (b0.val * 2 ^ 24 + b1.val * 2 ^ 16 + b2.val * 2 ^ 8 + b3.val)
                ++ c).length ≤ m := by
              simp only [List.cons_append, List.length_cons, List.length_append,
                List.length_drop] at hm ⊢
              omega
            have step := ih _ fs1 r1 hq m m1 hm2 hm1
            simp only [List.cons_append] at hh2 ⊢
            simp only [pop_all, hh2, if_true, pop_cons4, if_pos hL2, Outcome.bind_ok,
              List.take_append_of_le_length hL, List.drop_append_of_le_length hL]
            rw [step, Outcome.bind_assoc]
            rfl
        | ub => rw [hq] at h; cases h
        | fuel => rw [hq] at h; cases h
      · cases h

theorem feed_eq (ts flow : Nat) (dir : Direction) (r c : ByteVec) :
    feed ts flow dir ⟨⟨r⟩⟩ c = pop_all ts flow dir (r ++ c).length ⟨⟨r ++ c⟩⟩ := rfl

/-- Chunked feeding against one-shot decoding: when decoding the stream cut after any
number of bytes does not fault, feeding the chunks one at a time pops the same payloads and
leaves the same remainder as decoding everything at once. -/
theorem feed_chunks_eq_whole (ts flow : Nat) (dir : Direction) :
    ∀ (cs : List ByteVec) (b : ByteVec) (fsb : List ByteVec) (r : ByteVec),
      pop_all ts flow dir b.length ⟨⟨b⟩⟩ = .ok (fsb, ⟨⟨r⟩⟩) →
      (∀ p, p <+: cs.flatten → ∃ x, pop_all ts flow dir (b ++ p).length ⟨⟨b ++ p⟩⟩ = .ok x) →
      ∃ fs e, feed_chunks ts flow dir ⟨⟨r⟩⟩ cs = .ok (fs, e) ∧
        pop_all ts flow dir (b ++ cs.flatten).length ⟨⟨b ++ cs.flatten⟩⟩ = .ok (fsb ++ fs, e) := by
  intro cs
  induction cs with
  | nil =>
    intro b fsb r h _
    exact ⟨[], ⟨⟨r⟩⟩, rfl, by simpa using h⟩
  | cons c cs ih =>
    intro b fsb r h hpre
    obtain ⟨⟨F, ⟨⟨r1⟩⟩⟩, hF⟩ := hpre c (by simp)
    have happ := pop_all_append ts flow dir c b.length b fsb r h (b ++ c).length
      (r ++ c).length (le_refl _) (le_refl _)
    rw [hF] at happ
    cases hq : pop_all ts flow dir (r ++ c).length ⟨⟨r ++ c⟩⟩ with
    | ok rs =>
      obtain ⟨fs1, ⟨⟨r2⟩⟩⟩ := rs
      rw [hq, Outcome.bind_ok] at happ
      simp only [Outcome.ok.injEq, Prod.mk.injEq, FrameExtractor.mk.injEq,
        StreamBuffer.mk.injEq] at happ
      obtain ⟨rfl, rfl⟩ := happ
      obtain ⟨fs2, e, h1, h2⟩ := ih (b ++ c) (fsb ++ fs1) r1 hF (by
        intro p hp
        have := hpre (c ++ p) (by
          simp only [List.flatten_cons]
          exact (List.prefix_append_right_inj c).2 hp)
        simpa [List.append_assoc] using this)
      refine ⟨fs1 ++ fs2, e, ?_, ?_⟩
      · simp only [feed_chunks, feed_eq, hq, Outcome.bind_ok, h1]
      · simpa [List.append_assoc] using h2
    | ub => rw [hq] at happ; cases happ
    | fuel => rw [hq] at happ; cases happ

/-- A proper prefix of one encoded frame whose payload is shorter than `2^32 - 4` bytes
holds no complete frame. -/
theorem has_frame_take_encode (P : ByteVec) (hP : P.length < 2 ^ 32 - 4) (k : Nat)
    (hk : k < P.length + 4) :
    FrameExtractor.has_frame ⟨⟨(encode_length_prefixed P).take k⟩⟩ = false := by
  rw [encode_length_prefixed_eq]
  have hmod : P.length % 2 ^ 32 = P.length := Nat.mod_eq_of_lt (by omega)
  rw [hmod]
  match k, hk with
  | 0, _ => rfl
  | 1, _ => rfl
  | 2, _ => rfl
  | 3, _ => rfl
  | k + 4, hk =>
    simp only [List.take_succ_cons]
    cases hh : FrameExtractor.has_frame ⟨⟨toByte (P.length / 2 ^ 24) :: toByte (P.length / 2 ^ 16)
        :: toByte (P.length / 2 ^ 8) :: toByte P.length :: List.take k P⟩⟩ with
    | false => rfl
    | true =>
      exfalso
      have hv : (toByte (P.length / 2 ^ 24)).val * 2 ^ 24 + (toByte (P.length / 2 ^ 16)).val * 2 ^ 16
          + (toByte (P.length / 2 ^ 8)).val * 2 ^ 8 + (toByte P.length).val = P.length := by
        simp only [toByte_val]; omega
      have := (has_frame_iff_of_small _ _ _ _ _ (by rw [hv]; exact hP)).1 hh
      rw [hv] at this
      simp only [List.length_cons, List.length_take] at this
      omega

/-- Any cut of a stream of encoded frames with payloads shorter than `2^32 - 4` bytes is
decoded without a fault. -/
theorem pop_all_prefix_ok (ts flow : Nat) (dir : Direction) :
    ∀ (Ps : List ByteVec), (∀ P ∈ Ps, P.length < 2 ^ 32 - 4) →
      ∀ p, p <+: (Ps.map encode_length_prefixed).flatten →
        ∃ x, pop_all ts flow dir p.length ⟨⟨p⟩⟩ = .ok x := by
  intro Ps
  induction Ps with
  | nil =>
    intro _ p hp
    have : p = [] := by simpa using hp
    subst this
    exact ⟨([], ⟨⟨[]⟩⟩), rfl⟩
  | cons P Ps ih =>
    intro hPs p hp
    have hP := hPs P (List.mem_cons_self _ _)
    simp only [List.map_cons, List.flatten_cons] at hp
    have hpt := List.prefix_iff_eq_take.1 hp
    rw [List.take_append_eq_append_take] at hpt
    by_cases hk : p.length < P.length + 4
    · have h0 : p.length - (encode_length_prefixed P).length = 0 := by
        rw [encode_length_prefixed_length]; omega
      rw [h0, List.take_zero, List.append_nil] at hpt
      have hf := has_frame_take_encode P hP p.length hk
      rw [← hpt] at hf
      refine ⟨([], ⟨⟨p⟩⟩), ?_⟩
      cases hn : p.length <;> simp [pop_all, hf]
    · have hfull : List.take p.length (encode_length_prefixed P) = encode_length_prefixed P :=
        List.take_of_length_le (by rw [encode_length_prefixed_length]; omega)
      rw [hfull] at hpt
      obtain ⟨x, hx⟩ := ih (fun Q hQ => hPs Q (List.mem_cons_of_mem _ hQ))
        (List.take (p.length - (encode_length_prefixed P).length)
          (Ps.map encode_length_prefixed).flatten) (List.take_prefix _ _)
      rw [hpt]
      rw [pop_all_encode_append ts flow dir P _ (by omega) _ _ (le_refl _) (le_refl _), hx]
      exact ⟨_, rfl⟩

/-- Streaming decode for frames with payloads shorter than `2^32 - 4` bytes: for every
split of the stream into chunks, feeding the chunks in order to a fresh decoder pops exactly
the payloads, in order, and so does pushing the whole stream at once. -/
theorem feed_chunks_bounded (ts flow : Nat) (dir : Direction) (Ps : List ByteVec)
    (hPs : ∀ P ∈ Ps, P.length < 2 ^ 32 - 4) (cs : List ByteVec)
    (hcs : cs.flatten = (Ps.map encode_length_prefixed).flatten) :
    feed_chunks ts flow dir {} cs = .ok (Ps, {}) ∧
    feed ts flow dir {} (Ps.map encode_length_prefixed).flatten = .ok (Ps, {}) := by
  have hwhole := pop_all_frames ts flow dir [] has_frame_nil Ps
    (fun P hP => by have := hPs P hP; omega) _ (le_refl _)
  simp only [List.append_nil] at hwhole
  obtain ⟨fs, e, h1, h2⟩ := feed_chunks_eq_whole ts flow dir cs [] [] [] rfl (by
    intro p hp
    rw [hcs] at hp
    simpa using pop_all_prefix_ok ts flow dir Ps hPs p hp)
  simp only [List.nil_append, hcs, hwhole, Outcome.ok.injEq, Prod.mk.injEq] at h2
  obtain ⟨rfl, rfl⟩ := h2
  exact ⟨h1, by simpa [feed_eq] using hwhole⟩

/-! ## Theorems: `process_chunk_to_outq` -/

theorem mapSet_same {κ : Type} [DecidableEq κ] {α : Type u} (m : κ → Option α) (k : κ) (a : α) :
    mapSet m k a k = some a := by
  simp [mapSet]

theorem mapSet_other {κ : Type} [DecidableEq κ] {α : Type u} (m : κ → Option α) (k k1 : κ)
    (a : α) (h : k1 ≠ k) : mapSet m k a k1 = m k1 := by
  simp [mapSet, h]

theorem mapSet_mapSet {κ : Type} [DecidableEq κ] {α : Type u} (m : κ → Option α) (k : κ)
    (a b : α) : mapSet (mapSet m k a) k b = mapSet m k b := by
  funext k1
  by_cases h : k1 = k <;> simp [mapSet, h]

theorem mapErase_same {κ : Type} [DecidableEq κ] {α : Type u} (m : κ → Option α) (k : κ) :
    mapErase m k k = none := by
  simp [mapErase]

theorem mapErase_other {κ : Type} [DecidableEq κ] {α : Type u} (m : κ → Option α) (k k1 : κ)
    (h : k1 ≠ k) : mapErase m k k1 = m k1 := by
  simp [mapErase, h]

/-- The function `process_chunk_to_outq` as "pop everything, then emit in order". -/
theorem process_chunk_to_outq_eq (g : ExtractorMap) (flow : Nat) (dir : Direction)
    (data : ByteVec) (ts : Nat) (chain : TransformChain) (outq : List ByteVec) :
    process_chunk_to_outq g flow dir data ts chain outq
      = (pop_all ts flow dir ((ExtractorMap.at g (extractor_key flow dir)).sb_.buf_ ++ data).length
          ⟨⟨(ExtractorMap.at g (extractor_key flow dir)).sb_.buf_ ++ data⟩⟩).bind fun r =>
          .ok (mapSet g (extractor_key flow dir) r.2, (emit_frames ts flow dir chain r.1).1,
            outq ++ (emit_frames ts flow dir chain r.1).2) := by
  unfold process_chunk_to_outq
  simp only [process_chunk_loop_eq, Outcome.bind_assoc, Outcome.bind_ok]
  rfl

/-- The loop of `process_chunk_to_outq` always has budget left: the call returns or faults,
it never stops for lack of iterations. -/
theorem process_chunk_to_outq_ne_fuel (g : ExtractorMap) (flow : Nat) (dir : Direction)
    (data : ByteVec) (ts : Nat) (chain : TransformChain) (outq : List ByteVec) :
    process_chunk_to_outq g flow dir data ts chain outq ≠ .fuel := by
  rw [process_chunk_to_outq_eq]
  have := pop_all_ne_fuel ts flow dir
    ((ExtractorMap.at g (extractor_key flow dir)).sb_.buf_ ++ data).length
    ⟨⟨(ExtractorMap.at g (extractor_key flow dir)).sb_.buf_ ++ data⟩⟩ (le_refl _)
  cases hq : pop_all ts flow dir
      ((ExtractorMap.at g (extractor_key flow dir)).sb_.buf_ ++ data).length
      ⟨⟨(ExtractorMap.at g (extractor_key flow dir)).sb_.buf_ ++ data⟩⟩ with
  | ok r => simp [Outcome.bind]
  | ub => simp [Outcome.bind]
  | fuel => exact absurd hq this

/-- Ordering, away from the length overflow: when the decoder's bytes followed by the chunk
are the encodings of `Ps` followed by a remainder in which `has_frame()` is false, the call
returns, the remainder stays in the decoder, and the queue is the old queue followed by the
encodings of the transformed non-empty payloads of `Ps`, in order. -/
theorem process_chunk_to_outq_frames (g : ExtractorMap) (flow : Nat) (dir : Direction)
    (data : ByteVec) (ts : Nat) (chain : TransformChain) (outq : List ByteVec)
    (Ps : List ByteVec) (rest : ByteVec) (hPs : ∀ P ∈ Ps, P.length < 2 ^ 32)
    (hsplit : (ExtractorMap.at g (extractor_key flow dir)).sb_.buf_ ++ data
      = (Ps.map encode_length_prefixed).flatten ++ rest)
    (hrest : FrameExtractor.has_frame ⟨⟨rest⟩⟩ = false) :
    process_chunk_to_outq g flow dir data ts chain outq
      = .ok (mapSet g (extractor_key flow dir) ⟨⟨rest⟩⟩, (emit_frames ts flow dir chain Ps).1,
          outq ++ (emit_frames ts flow dir chain Ps).2) := by
  rw [process_chunk_to_outq_eq, hsplit,
    pop_all_frames ts flow dir rest hrest Ps hPs _ (le_refl _)]
  rfl

/-- One decoded frame: when the decoder's bytes followed by the chunk start with the
encoding of `P`, the call behaves as if `P` had been transformed and enqueued (or dropped,
when the transformed payload is empty) and the call had been made on the remaining bytes. -/
theorem process_chunk_to_outq_head (g : ExtractorMap) (flow : Nat) (dir : Direction)
    (data : ByteVec) (ts : Nat) (chain : TransformChain) (outq : List ByteVec)
    (P rest : ByteVec) (hP : P.length < 2 ^ 32)
    (hsplit : (ExtractorMap.at g (extractor_key flow dir)).sb_.buf_ ++ data
      = encode_length_prefixed P ++ rest) :
    process_chunk_to_outq g flow dir data ts chain outq
      = process_chunk_to_outq (mapSet g (extractor_key flow dir) ⟨⟨rest⟩⟩) flow dir [] ts
          (chain.apply ⟨ts, flow, dir, P⟩).2
          (outq ++ (if (chain.apply ⟨ts, flow, dir, P⟩).1.payload = [] then []
            else [encode_length_prefixed (chain.apply ⟨ts, flow, dir, P⟩).1.payload])) := by
  rw [process_chunk_to_outq_eq, process_chunk_to_outq_eq, hsplit]
  simp only [ExtractorMap.at, mapSet_same, Option.getD_some, List.append_nil, mapSet_mapSet]
  rw [pop_all_encode_append ts flow dir P rest hP _ rest.length (le_refl _) (le_refl _),
    Outcome.bind_assoc]
  congr 1
  funext rs
  simp only [Outcome.bind_ok, emit_frames]
  by_cases he : (chain.apply ⟨ts, flow, dir, P⟩).1.payload = [] <;> simp [he]

/-! ## Claims C1, C2, C4 -/

/-- C1 (codec round trip). For every payload `P` shorter than `2^32` bytes, after pushing
`encode_length_prefixed P` into a fresh `FrameExtractor` the decoder holds `4 + |P|` bytes,
`has_frame()` is true, and `pop(ts, flow, dir)` returns the frame with timestamp `ts`, flow
id `flow`, direction `dir` and payload `P`, leaving the buffer empty: exactly `4 + |P|`
bytes were consumed. -/
theorem codec_round_trip (P : ByteVec) (hP : P.length < 2 ^ 32) (ts flow : Nat)
    (dir : Direction) :
    (FrameExtractor.push {} (encode_length_prefixed P)).has_frame = true ∧
    ∃ f ex1, (FrameExtractor.push {} (encode_length_prefixed P)).pop ts flow dir = .ok (f, ex1) ∧
      f.payload = P ∧ f.timestamp_ns = ts ∧ f.flow_id = flow ∧ f.dir = dir ∧
      (FrameExtractor.push {} (encode_length_prefixed P)).sb_.size
        = ex1.sb_.size + (4 + P.length) ∧
      ex1.sb_.buf_ = [] := by
  have hpush : FrameExtractor.push {} (encode_length_prefixed P)
      = ⟨⟨encode_length_prefixed P ++ []⟩⟩ := by
    simp [FrameExtractor.push, StreamBuffer.append]
  rw [hpush]
  refine ⟨has_frame_encode_append P [], ⟨ts, flow, dir, P⟩, ⟨⟨[]⟩⟩,
    pop_encode_append P [] hP ts flow dir, rfl, rfl, rfl, rfl, ?_, rfl⟩
  simp [StreamBuffer.size, encode_length_prefixed_length]
  omega

/-- Witness of C1: the payload "hello". -/
theorem codec_round_trip_witness :
    ([104, 101, 108, 108, 111] : ByteVec).length < 2 ^ 32 ∧
    ((FrameExtractor.push {} (encode_length_prefixed [104, 101, 108, 108, 111])).has_frame
        = true ∧
      ∃ f ex1, (FrameExtractor.push {} (encode_length_prefixed [104, 101, 108, 108, 111])).pop
          7 1 Direction.ClientToServer = .ok (f, ex1) ∧
        f.payload = [104, 101, 108, 108, 111] ∧ f.timestamp_ns = 7 ∧ f.flow_id = 1 ∧
        f.dir = Direction.ClientToServer ∧
        (FrameExtractor.push {} (encode_length_prefixed [104, 101, 108, 108, 111])).sb_.size
          = ex1.sb_.size + (4 + ([104, 101, 108, 108, 111] : ByteVec).length) ∧
        ex1.sb_.buf_ = []) :=
  ⟨by decide, codec_round_trip [104, 101, 108, 108, 111] (by decide) 7 1
    Direction.ClientToServer⟩

/-- C2 (evaluation at the failing input). With the four bytes `FF FF FF FF` buffered the
header announces `L = 4294967295`, the sum `4 + L` wraps to `3` in `uint32_t`, and
`has_frame()` is true although only 4 of the `4 + L` bytes are buffered; the `pop` that
follows asks `take` for more bytes than the buffer holds. -/
theorem has_frame_wraps_at_max_length :
    StreamBuffer.peek_u32 (FrameExtractor.push {} [255, 255, 255, 255]).sb_ = some 4294967295 ∧
    (FrameExtractor.push {} [255, 255, 255, 255]).has_frame = true ∧
    (FrameExtractor.push {} [255, 255, 255, 255]).has_frame_cpp = true ∧
    ¬ (4 + 4294967295 ≤ (FrameExtractor.push {} [255, 255, 255, 255]).sb_.size) ∧
    (FrameExtractor.push {} [255, 255, 255, 255]).pop 0 1 Direction.ClientToServer
      = Outcome.ub := by
  refine ⟨by decide, by decide, by decide, by decide, rfl⟩

/-- C4 (wire format). For every payload of length `L ≤ 2^32 - 1`, the encoder returns
exactly `L + 4` bytes; its first four bytes `b0 b1 b2 b3` are `L` as an unsigned 32-bit
big-endian integer, `L = b0·2^24 + b1·2^16 + b2·2^8 + b3` with `b0` the most significant
byte; and the remaining `L` bytes are the payload unchanged. -/
theorem encode_length_prefixed_wire_format (payload : ByteVec)
    (hL : payload.length ≤ 2 ^ 32 - 1) :
    (encode_length_prefixed payload).length = payload.length + 4 ∧
    (∃ b0 b1 b2 b3 : byte,
      (encode_length_prefixed payload).take 4 = [b0, b1, b2, b3] ∧
      b0.val * 2 ^ 24 + b1.val * 2 ^ 16 + b2.val * 2 ^ 8 + b3.val = payload.length) ∧
    (encode_length_prefixed payload).drop 4 = payload := by
  refine ⟨encode_length_prefixed_length payload, ?_, ?_⟩
  · refine ⟨toByte (payload.length % 2 ^ 32 / 2 ^ 24), toByte (payload.length % 2 ^ 32 / 2 ^ 16),
      toByte (payload.length % 2 ^ 32 / 2 ^ 8), toByte (payload.length % 2 ^ 32), ?_, ?_⟩
    · rw [encode_length_prefixed_eq]; rfl
    · simp only [toByte_val]
      omega
  · rw [encode_length_prefixed_eq]; rfl

/-- Witness of C4: the payload "abc" is encoded as `00 00 00 03 61 62 63`. -/
theorem encode_length_prefixed_wire_format_witness :
    ([97, 98, 99] : ByteVec).length ≤ 2 ^ 32 - 1 ∧
    ((encode_length_prefixed [97, 98, 99]).length = ([97, 98, 99] : ByteVec).length + 4 ∧
      (∃ b0 b1 b2 b3 : byte,
        (encode_length_prefixed [97, 98, 99]).take 4 = [b0, b1, b2, b3] ∧
        b0.val * 2 ^ 24 + b1.val * 2 ^ 16 + b2.val * 2 ^ 8 + b3.val
          = ([97, 98, 99] : ByteVec).length) ∧
      (encode_length_prefixed [97, 98, 99]).drop 4 = [97, 98, 99]) :=
  ⟨by decide, encode_length_prefixed_wire_format [97, 98, 99] (by decide)⟩

/-! ## Claims C3, C5, C6 -/

/-- Streaming decode at a payload of `2^32 - 1` bytes: the whole stream decodes to the
payload, while feeding its first four bytes alone makes `has_frame()` true and `pop` fault. -/
theorem feed_chunks_max_length (P : ByteVec) (hlen : P.length = 4294967295) :
    [(encode_length_prefixed P).take 4, (encode_length_prefixed P).drop 4].flatten
      = encode_length_prefixed P ∧
    feed 0 1 Direction.ClientToServer {} (encode_length_prefixed P) = .ok ([P], {}) ∧
    feed_chunks 0 1 Direction.ClientToServer {}
      [(encode_length_prefixed P).take 4, (encode_length_prefixed P).drop 4] = .ub := by
  refine ⟨by simp, ?_, ?_⟩
  · have h := pop_all_frames 0 1 Direction.ClientToServer [] has_frame_nil [P]
      (by intro Q hQ; simp only [List.mem_singleton] at hQ; subst hQ; omega) _ (le_refl _)
    simpa [feed_eq] using h
  · have htake : (encode_length_prefixed P).take 4 = [255, 255, 255, 255] := by
      rw [encode_length_prefixed_eq, hlen]; rfl
    rw [htake]
    rfl

/-- C3 (evaluation at the failing input). The stream is the encoding of one payload of
`4294967295` zero bytes, split after its four header bytes `FF FF FF FF`. Pushed at once, it
decodes to that payload. Fed in the two chunks, the first chunk alone makes `has_frame()`
true (the sum `4 + len` wraps) and the `pop` that follows takes `4294967295` bytes from an
empty buffer: the chunked run faults instead of yielding the same payload. -/
theorem streaming_decode_fails_at_max_length :
    (List.replicate 4294967295 (0 : byte)).length < 2 ^ 32 ∧
    [(encode_length_prefixed (List.replicate 4294967295 0)).take 4,
        (encode_length_prefixed (List.replicate 4294967295 0)).drop 4].flatten
      = encode_length_prefixed (List.replicate 4294967295 0) ∧
    feed 0 1 Direction.ClientToServer {} (encode_length_prefixed (List.replicate 4294967295 0))
      = .ok ([List.replicate 4294967295 0], {}) ∧
    feed_chunks 0 1 Direction.ClientToServer {}
      [(encode_length_prefixed (List.replicate 4294967295 0)).take 4,
        (encode_length_prefixed (List.replicate 4294967295 0)).drop 4] = .ub := by
  have hlen : (List.replicate 4294967295 (0 : byte)).length = 4294967295 :=
    List.length_replicate _ _
  exact ⟨by rw [hlen]; norm_num, feed_chunks_max_length _ hlen⟩

/-- C5 (evaluation at the failing input). On a fresh decoder the chunk `FF FF FF FF`
completes no frame: it is not the encoding of any payload followed by further bytes, its
header announces `4294967295` payload bytes and none has arrived. The queue should stay as it
was; instead `has_frame()` is true and the call faults in `pop`, for every queue and every
chain. -/
theorem process_chunk_to_outq_faults_at_max_length (chain : TransformChain)
    (outq : List ByteVec) :
    (¬ ∃ P rest : ByteVec, [255, 255, 255, 255] = encode_length_prefixed P ++ rest) ∧
    ¬ (4 + 4294967295 ≤ ([255, 255, 255, 255] : ByteVec).length) ∧
    (FrameExtractor.push {} [255, 255, 255, 255]).has_frame = true ∧
    process_chunk_to_outq (fun _ => none) 1 Direction.ClientToServer [255, 255, 255, 255] 0
      chain outq = .ub := by
  refine ⟨?_, by decide, by decide, rfl⟩
  rintro ⟨P, rest, h⟩
  have hlen := congrArg List.length h
  rw [List.length_append, encode_length_prefixed_length] at hlen
  simp only [List.length_cons, List.length_nil] at hlen
  have hP : P = [] := List.eq_nil_of_length_eq_zero (by omega)
  subst hP
  rw [encode_length_prefixed_eq] at h
  simp only [List.cons_append, List.cons.injEq] at h
  exact absurd h.1 (by decide)

theorem emit_frames_appendX (ts flow : Nat) (dir : Direction) :
    (emit_frames ts flow dir ⟨[appendX]⟩ [[]]).2 = [[0, 0, 0, 1, 120]] := by
  have he : encode_length_prefixed [120] = [0, 0, 0, 1, 120] := by decide
  simp [emit_frames, TransformChain.apply, TransformChain.applyList, appendX, he]

/-- The empty frame through the chain that appends "x". -/
theorem process_chunk_to_outq_appendX (flow : Nat) (dir : Direction) (ts : Nat)
    (outq : List ByteVec) :
    process_chunk_to_outq (fun _ => none) flow dir [0, 0, 0, 0] ts ⟨[appendX]⟩ outq
      = .ok (mapSet (fun _ => none) (extractor_key flow dir) ⟨⟨[]⟩⟩,
          (emit_frames ts flow dir ⟨[appendX]⟩ [[]]).1, outq ++ [[0, 0, 0, 1, 120]]) := by
  rw [process_chunk_to_outq_frames (fun _ => none) flow dir [0, 0, 0, 0] ts ⟨[appendX]⟩ outq
    [[]] [] (by simp) rfl has_frame_nil, emit_frames_appendX]

/-- The buffers emitted for a list of frames are, frame by frame, what `enqueued_for` gives
for the transformed payloads. -/
theorem emit_frames_eq (ts flow : Nat) (dir : Direction) :
    ∀ (Ps : List ByteVec) (chain : TransformChain),
      emit_frames ts flow dir chain Ps
        = ((transformed_payloads ts flow dir chain Ps).2,
            ((transformed_payloads ts flow dir chain Ps).1.map enqueued_for).flatten) := by
  intro Ps
  induction Ps with
  | nil => intro chain; rfl
  | cons P Ps ih =>
    intro chain
    simp only [emit_frames, transformed_payloads, ih, List.map_cons, List.flatten_cons,
      enqueued_for]

/-- The queue after any call, in terms of the frames popped by the call: the old queue,
then for each popped frame, in order, what `enqueued_for` gives for its transformed payload;
the call faults exactly when the pop loop faults. -/
theorem process_chunk_to_outq_queue (g : ExtractorMap) (flow : Nat) (dir : Direction)
    (data : ByteVec) (ts : Nat) (chain : TransformChain) (outq : List ByteVec) :
    process_chunk_to_outq g flow dir data ts chain outq
      = (pop_all ts flow dir ((ExtractorMap.at g (extractor_key flow dir)).sb_.buf_ ++ data).length
          ⟨⟨(ExtractorMap.at g (extractor_key flow dir)).sb_.buf_ ++ data⟩⟩).bind fun r =>
          .ok (mapSet g (extractor_key flow dir) r.2,
            (transformed_payloads ts flow dir chain r.1).2,
            outq ++ ((transformed_payloads ts flow dir chain r.1).1.map enqueued_for).flatten) := by
  rw [process_chunk_to_outq_eq]
  congr 1
  funext r
  rw [emit_frames_eq]

/-- C6 (drop on empty). Let the bytes in the decoder followed by the chunk be the encodings
of the payloads `Ps` followed by bytes `rest` that hold no complete frame. Then
`process_chunk_to_outq` returns; it decodes exactly the frames `Ps`; the queue afterwards is
the queue before followed, for each decoded frame in order, by nothing when its payload is
empty after `chain.apply` and by exactly one buffer, the length-prefixed encoding of that
payload, when it is non-empty; `rest` stays in the decoder. For every call, the queue
afterwards is the old queue followed by these contributions of the frames the pop loop
returned, and the call faults only when a `pop` faults. For any call, whatever follows
the first frame `P`, that frame adds nothing or that one buffer before the call goes on with
the remaining bytes. With an empty chain the input `00 00 00 00` leaves the queue unchanged;
with a transform that appends "x" it enqueues `00 00 00 01 78`. -/
theorem drop_on_empty (g : ExtractorMap) (flow : Nat) (dir : Direction) (data : ByteVec)
    (ts : Nat) (chain : TransformChain) (outq : List ByteVec) (Ps : List ByteVec)
    (rest : ByteVec) (hPs : ∀ P ∈ Ps, P.length < 2 ^ 32)
    (hsplit : (ExtractorMap.at g (extractor_key flow dir)).sb_.buf_ ++ data
      = (Ps.map encode_length_prefixed).flatten ++ rest)
    (hrest : FrameExtractor.has_frame ⟨⟨rest⟩⟩ = false) :
    process_chunk_to_outq g flow dir data ts chain outq
      = .ok (mapSet g (extractor_key flow dir) ⟨⟨rest⟩⟩,
          (transformed_payloads ts flow dir chain Ps).2,
          outq ++ ((transformed_payloads ts flow dir chain Ps).1.map
            (fun T => if T = [] then [] else [encode_length_prefixed T])).flatten) ∧
    (transformed_payloads ts flow dir chain Ps).1.length = Ps.length ∧
    process_chunk_to_outq g flow dir data ts chain outq
      = ((pop_all ts flow dir
            ((ExtractorMap.at g (extractor_key flow dir)).sb_.buf_ ++ data).length
            ⟨⟨(ExtractorMap.at g (extractor_key flow dir)).sb_.buf_ ++ data⟩⟩).bind fun r =>
          .ok (mapSet g (extractor_key flow dir) r.2,
            (transformed_payloads ts flow dir chain r.1).2,
            outq ++ ((transformed_payloads ts flow dir chain r.1).1.map
              (fun T => if T = [] then [] else [encode_length_prefixed T])).flatten)) ∧
    (∀ P rest1, P.length < 2 ^ 32 →
      (ExtractorMap.at g (extractor_key flow dir)).sb_.buf_ ++ data
        = encode_length_prefixed P ++ rest1 →
      process_chunk_to_outq g flow dir data ts chain outq
        = process_chunk_to_outq (mapSet g (extractor_key flow dir) ⟨⟨rest1⟩⟩) flow dir [] ts
            (chain.apply ⟨ts, flow, dir, P⟩).2
            (outq ++ (if (chain.apply ⟨ts, flow, dir, P⟩).1.payload = [] then []
              else [encode_length_prefixed (chain.apply ⟨ts, flow, dir, P⟩).1.payload]))) ∧
    (∃ g1 chain1, process_chunk_to_outq (fun _ => none) flow dir [0, 0, 0, 0] ts {} outq
      = .ok (g1, chain1, outq)) ∧
    (∃ g1 chain1, process_chunk_to_outq (fun _ => none) flow dir [0, 0, 0, 0] ts ⟨[appendX]⟩ outq
      = .ok (g1, chain1, outq ++ [[0, 0, 0, 1, 120]])) := by
  refine ⟨?_, ?_, process_chunk_to_outq_queue g flow dir data ts chain outq, ?_, ⟨_, _, rfl⟩,
    ⟨_, _, process_chunk_to_outq_appendX flow dir ts outq⟩⟩
  · rw [process_chunk_to_outq_frames g flow dir data ts chain outq Ps rest hPs hsplit hrest,
      emit_frames_eq]
    rfl
  · clear hsplit hPs
    induction Ps generalizing chain with
    | nil => rfl
    | cons P Ps ih =>
      simp only [transformed_payloads, List.length_cons]
      rw [ih]
  · intro P rest1 hP hsplit1
    exact process_chunk_to_outq_head g flow dir data ts chain outq P rest1 hP hsplit1

/-- The run of the witness of C6, evaluated: with `[09 09]` already queued, the chunk
`00 00 00 01 61 00 00` through the chain that appends "x" adds the one buffer
`00 00 00 02 61 78` behind it and leaves `00 00` in the decoder. -/
theorem drop_on_empty_example :
    ∃ chain1, process_chunk_to_outq (fun _ => none) 1 Direction.ClientToServer
        [0, 0, 0, 1, 97, 0, 0] 5 ⟨[appendX]⟩ [[9, 9]]
      = .ok (mapSet (fun _ => none) (extractor_key 1 Direction.ClientToServer) ⟨⟨[0, 0]⟩⟩,
          chain1, [[9, 9], [0, 0, 0, 2, 97, 120]]) := by
  have he : encode_length_prefixed [97, 120] = [0, 0, 0, 2, 97, 120] := by decide
  have hq : (emit_frames 5 1 Direction.ClientToServer ⟨[appendX]⟩ [[97]]).2
      = [[0, 0, 0, 2, 97, 120]] := by
    simp [emit_frames, TransformChain.apply, TransformChain.applyList, appendX, he]
  refine ⟨(emit_frames 5 1 Direction.ClientToServer ⟨[appendX]⟩ [[97]]).1, ?_⟩
  rw [process_chunk_to_outq_frames (fun _ => none) 1 Direction.ClientToServer
    [0, 0, 0, 1, 97, 0, 0] 5 ⟨[appendX]⟩ [[9, 9]] [[97]] [0, 0] (by simp) (by decide)
    (by decide), hq]
  rfl

/-- Witness of C6: the chunk `00 00 00 01 61 00 00` ("a" and the start of another header)
arriving at a fresh decoder, with `[09 09]` already queued and the chain that appends "x". -/
theorem drop_on_empty_witness :
    ((∀ P ∈ ([[97]] : List ByteVec), P.length < 2 ^ 32) ∧
      (ExtractorMap.at (fun _ => none) (extractor_key 1 Direction.ClientToServer)).sb_.buf_
          ++ [0, 0, 0, 1, 97, 0, 0]
        = (([[97]] : List ByteVec).map encode_length_prefixed).flatten ++ [0, 0] ∧
      FrameExtractor.has_frame ⟨⟨[0, 0]⟩⟩ = false) ∧
    (process_chunk_to_outq (fun _ => none) 1 Direction.ClientToServer [0, 0, 0, 1, 97, 0, 0] 5
        ⟨[appendX]⟩ [[9, 9]]
      = .ok (mapSet (fun _ => none) (extractor_key 1 Direction.ClientToServer) ⟨⟨[0, 0]⟩⟩,
          (transformed_payloads 5 1 Direction.ClientToServer ⟨[appendX]⟩ [[97]]).2,
          [[9, 9]] ++ ((transformed_payloads 5 1 Direction.ClientToServer ⟨[appendX]⟩
            [[97]]).1.map
              (fun T => if T = [] then [] else [encode_length_prefixed T])).flatten) ∧
      (transformed_payloads 5 1 Direction.ClientToServer ⟨[appendX]⟩ [[97]]).1.length
        = ([[97]] : List ByteVec).length ∧
      process_chunk_to_outq (fun _ => none) 1 Direction.ClientToServer [0, 0, 0, 1, 97, 0, 0] 5
          ⟨[appendX]⟩ [[9, 9]]
        = ((pop_all 5 1 Direction.ClientToServer
              ((ExtractorMap.at (fun _ => none)
                (extractor_key 1 Direction.ClientToServer)).sb_.buf_
                  ++ [0, 0, 0, 1, 97, 0, 0]).length
              ⟨⟨(ExtractorMap.at (fun _ => none)
                (extractor_key 1 Direction.ClientToServer)).sb_.buf_
                  ++ [0, 0, 0, 1, 97, 0, 0]⟩⟩).bind fun r =>
            .ok (mapSet (fun _ => none) (extractor_key 1 Direction.ClientToServer) r.2,
              (transformed_payloads 5 1 Direction.ClientToServer ⟨[appendX]⟩ r.1).2,
              [[9, 9]] ++ ((transformed_payloads 5 1 Direction.ClientToServer ⟨[appendX]⟩
                r.1).1.map
                  (fun T => if T = [] then [] else [encode_length_prefixed T])).flatten)) ∧
      (∀ P rest1, P.length < 2 ^ 32 →
        (ExtractorMap.at (fun _ => none) (extractor_key 1 Direction.ClientToServer)).sb_.buf_
            ++ [0, 0, 0, 1, 97, 0, 0]
          = encode_length_prefixed P ++ rest1 →
        process_chunk_to_outq (fun _ => none) 1 Direction.ClientToServer
            [0, 0, 0, 1, 97, 0, 0] 5 ⟨[appendX]⟩ [[9, 9]]
          = process_chunk_to_outq
              (mapSet (fun _ => none) (extractor_key 1 Direction.ClientToServer) ⟨⟨rest1⟩⟩) 1
              Direction.ClientToServer [] 5
              ((⟨[appendX]⟩ : TransformChain).apply ⟨5, 1, Direction.ClientToServer, P⟩).2
              ([[9, 9]] ++ (if ((⟨[appendX]⟩ : TransformChain).apply
                    ⟨5, 1, Direction.ClientToServer, P⟩).1.payload = [] then []
                else [encode_length_prefixed ((⟨[appendX]⟩ : TransformChain).apply
                    ⟨5, 1, Direction.ClientToServer, P⟩).1.payload]))) ∧
      (∃ g1 chain1, process_chunk_to_outq (fun _ => none) 1 Direction.ClientToServer
          [0, 0, 0, 0] 5 {} [[9, 9]] = .ok (g1, chain1, [[9, 9]])) ∧
      (∃ g1 chain1, process_chunk_to_outq (fun _ => none) 1 Direction.ClientToServer
          [0, 0, 0, 0] 5 ⟨[appendX]⟩ [[9, 9]]
        = .ok (g1, chain1, [[9, 9]] ++ [[0, 0, 0, 1, 120]]))) :=
  ⟨⟨by simp, by decide, by decide⟩,
    drop_on_empty (fun _ => none) 1 Direction.ClientToServer [0, 0, 0, 1, 97, 0, 0] 5
      ⟨[appendX]⟩ [[9, 9]] [[97]] [0, 0] (by simp) (by decide) (by decide)⟩

/-! ## Theorems: the engine -/

/-- The decoder key is twice the flow id plus the direction bit. -/
theorem extractor_key_eq (flow : Nat) (dir : Direction) :
    extractor_key flow dir
      = 2 * (flow % 2 ^ 32) + (if dir = Direction.ServerToClient then 1 else 0) := by
  unfold extractor_key
  have h1 : (flow % 2 ^ 32) <<< 1 % 2 ^ 64 = 2 ^ 1 * (flow % 2 ^ 32) := by
    rw [Nat.shiftLeft_eq]
    have : flow % 2 ^ 32 < 2 ^ 32 := Nat.mod_lt _ (by norm_num)
    omega
  rw [h1]
  have hb : (if dir = Direction.ServerToClient then 1 else 0) < 2 ^ 1 := by
    split <;> norm_num
  rw [← Nat.mul_add_lt_is_or hb]

/-- The decoder key determines the flow id (below `2^32`) and the direction. -/
theorem extractor_key_injective (f1 f2 : Nat) (d1 d2 : Direction) (h1 : f1 < 2 ^ 32)
    (h2 : f2 < 2 ^ 32) (h : extractor_key f1 d1 = extractor_key f2 d2) : f1 = f2 ∧ d1 = d2 := by
  rw [extractor_key_eq, extractor_key_eq, Nat.mod_eq_of_lt h1, Nat.mod_eq_of_lt h2] at h
  cases d1 <;> cases d2 <;> simp at h ⊢ <;> omega

theorem close_flow_of_live (s : Engine) (fid : Nat) (f : Flow) (hlive : s.flows fid = some f)
    (hopen : f.closed = false) :
    (close_flow s fid).flows = mapErase s.flows fid ∧
    (close_flow s fid).g_extractors
      = mapErase (mapErase s.g_extractors (extractor_key fid Direction.ClientToServer))
          (extractor_key fid Direction.ServerToClient) ∧
    (close_flow s fid).fdctx
      = (fun fd => if (fd = f.client.fd ∧ 0 ≤ f.client.fd) ∨ (fd = f.upstream.fd ∧ 0 ≤ f.upstream.fd)
          then none else s.fdctx fd) ∧
    (close_flow s fid).epoll
      = (fun fd => if (fd = f.client.fd ∧ 0 ≤ f.client.fd) ∨ (fd = f.upstream.fd ∧ 0 ≤ f.upstream.fd)
          then none else s.epoll fd) := by
  unfold close_flow
  simp only [hlive, hopen, Bool.false_eq_true, if_false, ge_iff_le]
  by_cases hc : 0 ≤ f.client.fd <;> by_cases hu : 0 ≤ f.upstream.fd <;>
    simp only [hc, hu, if_true, if_false, and_true, and_false, or_false, false_or] <;>
    refine ⟨trivial, trivial, ?_, ?_⟩ <;>
    funext fd <;>
    simp only [mapErase, epoll_ctl_del] <;>
    by_cases h1 : fd = f.client.fd <;> by_cases h2 : fd = f.upstream.fd <;> simp [h1, h2]

theorem close_flow_of_absent (s : Engine) (fid : Nat) (h : s.flows fid = none) :
    close_flow s fid = s := by
  unfold close_flow
  simp only [h]

theorem close_flow_of_closed (s : Engine) (fid : Nat) (f : Flow) (hlive : s.flows fid = some f)
    (hclosed : f.closed = true) : close_flow s fid = s := by
  unfold close_flow
  simp only [hlive, hclosed, if_true]

/-! ## Claims C7, C8; teardown in consistent tables -/

/-- C7 (evaluation at the failing input). After the third iteration of `fatal_send_trace`
(the `send` on the upstream descriptor 6 failed with a fatal error) flow 1 is still live and
its upstream peer has a non-empty outbound queue and `connecting = false`, yet
`want_write = false` and descriptor 6 is subscribed without `EPOLLOUT`. One iteration
earlier the flag and the subscription were both set. -/
theorem want_write_cleared_with_data_queued :
    (run_loop (Engine.init 3 {}) (fatal_send_trace.take 2)).toOption.map
        (fun s => ((s.flows 1).map fun f =>
          (f.upstream.outq, f.upstream.connecting, f.upstream.want_write),
          (s.epoll 6).map fun m => m.EPOLLOUT))
      = some (some ([[0, 0, 0, 1, 97]], false, true), some true) ∧
    (run_loop (Engine.init 3 {}) fatal_send_trace).toOption.map
        (fun s => ((s.flows 1).map fun f =>
          (f.upstream.outq, f.upstream.connecting, f.upstream.want_write),
          (s.epoll 6).map fun m => m.EPOLLOUT))
      = some (some ([[0, 0, 0, 1, 97]], false, false), some false) := by
  constructor <;> decide

/-- C8 (evaluation at the failing input). In `fatal_send_trace` the queue of the upstream
peer holds one buffer when descriptor 6 becomes writable and `send` fails with a fatal
error: `flush_outq` returns `false`, the same value as for "nothing pending", and after
the event flow 1 is still in the flow table and descriptors 5 and 6 are still in the
descriptor table. -/
theorem fatal_send_error_keeps_flow :
    flush_outq [[0, 0, 0, 1, 97]] [SendResult.error]
      = .ok (false, [[0, 0, 0, 1, 97]], [], []) ∧
    (run_loop (Engine.init 3 {}) fatal_send_trace).toOption.map
        (fun s => (s.flows 1, s.fdctx 5, s.fdctx 6))
      = some (some { id := 1, client := { fd := 5 },
                     upstream := { fd := 6, outq := [[0, 0, 0, 1, 97]] } },
              some ⟨1, true⟩, some ⟨1, false⟩) := by
  constructor
  · rfl
  · decide

/-- Teardown completeness in consistent tables. Let `flow_id` be a live flow (present in the
flow table, not closed) in a state whose descriptor table names `flow_id` only at the flow's own two
descriptors. After `close_flow(flow_id)` the flow table has no entry for `flow_id`, no entry
of the descriptor table has flow id `flow_id`, the client and the upstream descriptor are
absent from the descriptor table and from the epoll interest list, and the decoder table has
no entry for `(flow_id, ClientToServer)` and `(flow_id, ServerToClient)`. -/
theorem close_flow_teardown (s : Engine) (flow_id : Nat) (f : Flow)
    (hlive : s.flows flow_id = some f) (hopen : f.closed = false)
    (hfds : ∀ fd ctx, s.fdctx fd = some ctx → ctx.flow_id = flow_id →
      0 ≤ fd ∧ (fd = f.client.fd ∨ fd = f.upstream.fd)) :
    (close_flow s flow_id).flows flow_id = none ∧
    (∀ fd ctx, (close_flow s flow_id).fdctx fd = some ctx → ctx.flow_id ≠ flow_id) ∧
    (∀ fd, 0 ≤ fd → (fd = f.client.fd ∨ fd = f.upstream.fd) →
      (close_flow s flow_id).fdctx fd = none ∧ (close_flow s flow_id).epoll fd = none) ∧
    (close_flow s flow_id).g_extractors (extractor_key flow_id Direction.ClientToServer) = none ∧
    (close_flow s flow_id).g_extractors (extractor_key flow_id Direction.ServerToClient) = none := by
  obtain ⟨hflows, hext, hfd, hep⟩ := close_flow_of_live s flow_id f hlive hopen
  have hgone : ∀ fd, 0 ≤ fd → (fd = f.client.fd ∨ fd = f.upstream.fd) →
      ((fd = f.client.fd ∧ 0 ≤ f.client.fd) ∨ (fd = f.upstream.fd ∧ 0 ≤ f.upstream.fd)) := by
    intro fd h0 h
    rcases h with h | h
    · exact Or.inl ⟨h, h ▸ h0⟩
    · exact Or.inr ⟨h, h ▸ h0⟩
  refine ⟨?_, ?_, ?_, ?_, ?_⟩
  · rw [hflows]; exact mapErase_same _ _
  · intro fd ctx hctx hid
    rw [hfd] at hctx
    simp only at hctx
    split at hctx
    · cases hctx
    · rename_i hne
      obtain ⟨h0, h⟩ := hfds fd ctx hctx hid
      exact hne (hgone fd h0 h)
  · intro fd h0 h
    rw [hfd, hep]
    simp only [if_pos (hgone fd h0 h), and_self]
  · rw [hext]
    by_cases hk : extractor_key flow_id Direction.ClientToServer
        = extractor_key flow_id Direction.ServerToClient
    · rw [hk]; exact mapErase_same _ _
    · rw [mapErase_other _ _ _ hk]; exact mapErase_same _ _
  · rw [hext]; exact mapErase_same _ _

theorem two_flow_state_fdctx (fd : Int) :
    two_flow_state.fdctx fd
      = if fd = 8 then some ⟨2, false⟩ else if fd = 7 then some ⟨2, true⟩
        else if fd = 6 then some ⟨1, false⟩ else if fd = 5 then some ⟨1, true⟩ else none := rfl

theorem two_flow_state_flows_one :
    two_flow_state.flows 1 = some { id := 1, client := { fd := 5 }, upstream := { fd := 6 } } := by
  decide

/-- Teardown completeness at an instance: closing flow 1 in `two_flow_state`. -/
theorem close_flow_teardown_witness :
    (two_flow_state.flows 1 = some { id := 1, client := { fd := 5 }, upstream := { fd := 6 } } ∧
      (∀ fd ctx, two_flow_state.fdctx fd = some ctx → ctx.flow_id = 1 →
        0 ≤ fd ∧ (fd = 5 ∨ fd = 6))) ∧
    ((close_flow two_flow_state 1).flows 1 = none ∧
      (∀ fd ctx, (close_flow two_flow_state 1).fdctx fd = some ctx → ctx.flow_id ≠ 1) ∧
      (∀ fd, 0 ≤ fd → (fd = 5 ∨ fd = 6) →
        (close_flow two_flow_state 1).fdctx fd = none ∧
        (close_flow two_flow_state 1).epoll fd = none) ∧
      (close_flow two_flow_state 1).g_extractors (extractor_key 1 Direction.ClientToServer)
        = none ∧
      (close_flow two_flow_state 1).g_extractors (extractor_key 1 Direction.ServerToClient)
        = none) := by
  have hfds : ∀ fd ctx, two_flow_state.fdctx fd = some ctx → ctx.flow_id = 1 →
      0 ≤ fd ∧ (fd = 5 ∨ fd = 6) := by
    intro fd ctx h hid
    rw [two_flow_state_fdctx] at h
    split_ifs at h with h8 h7 h6 h5
    · cases h; cases hid
    · cases h; cases hid
    · subst h6; exact ⟨by decide, Or.inr rfl⟩
    · subst h5; exact ⟨by decide, Or.inl rfl⟩
  exact ⟨⟨two_flow_state_flows_one, hfds⟩,
    close_flow_teardown two_flow_state 1
      { id := 1, client := { fd := 5 }, upstream := { fd := 6 } }
      two_flow_state_flows_one rfl hfds⟩

/-! ## Cross-flow effects of calls that return -/

/-- A returning `process_chunk_to_outq` stores one decoder, under the key of its own flow
and direction, and touches no other entry of `g_extractors`. -/
theorem process_chunk_to_outq_map (g : ExtractorMap) (flow : Nat) (dir : Direction)
    (data : ByteVec) (ts : Nat) (chain : TransformChain) (outq : List ByteVec)
    (g1 : ExtractorMap) (chain1 : TransformChain) (outq1 : List ByteVec)
    (h : process_chunk_to_outq g flow dir data ts chain outq = .ok (g1, chain1, outq1)) :
    ∃ ex, g1 = mapSet g (extractor_key flow dir) ex := by
  rw [process_chunk_to_outq_eq] at h
  cases hq : pop_all ts flow dir
      ((ExtractorMap.at g (extractor_key flow dir)).sb_.buf_ ++ data).length
      ⟨⟨(ExtractorMap.at g (extractor_key flow dir)).sb_.buf_ ++ data⟩⟩ with
  | ok r =>
    rw [hq, Outcome.bind_ok] at h
    simp only [Outcome.ok.injEq, Prod.mk.injEq] at h
    exact ⟨r.2, h.1.symm⟩
  | ub => rw [hq] at h; cases h
  | fuel => rw [hq] at h; cases h

/-- A returning `recv_chunk` writes the flow record under `key`, leaves the descriptor table
alone and stores one decoder under the key of `(f.id, direction)`. -/
theorem recv_chunk_frame (s : Engine) (key : Nat) (f : Flow) (is_client : Bool)
    (chunk : ByteVec) (now : Nat) (s1 : Engine) (f1 : Flow)
    (h : recv_chunk s key f is_client chunk now = .ok (s1, f1)) :
    s1.flows = mapSet s.flows key f1 ∧ s1.fdctx = s.fdctx ∧
    ∃ ex, s1.g_extractors = mapSet s.g_extractors
      (extractor_key f.id (if is_client then Direction.ClientToServer
        else Direction.ServerToClient)) ex := by
  unfold recv_chunk at h
  cases hp : process_chunk_to_outq s.g_extractors f.id
      (if is_client then Direction.ClientToServer else Direction.ServerToClient) chunk now
      s.chain (f.dst is_client).outq with
  | ok r =>
    obtain ⟨g1, chain1, outq1⟩ := r
    obtain ⟨ex, hex⟩ := process_chunk_to_outq_map _ _ _ _ _ _ _ _ _ _ hp
    simp only [hp, Outcome.bind_ok] at h
    split at h <;>
      · simp only [Outcome.ok.injEq, Prod.mk.injEq] at h
        obtain ⟨rfl, rfl⟩ := h
        exact ⟨rfl, rfl, ex, hex⟩
  | ub => simp only [hp, Outcome.bind_ub] at h; cases h
  | fuel => simp only [hp, Outcome.bind_fuel] at h; cases h

/-- No cross-flow interference by calls that return. Let `A ≠ B` be flow ids (32-bit values)
in a state in which no descriptor of flow `A` is registered in the descriptor table for flow `B`. Then:
`extractor_key` maps distinct (flow id, direction) pairs to distinct keys; `close_flow(A)`
leaves the flow-table record of `B` (with its peers' outbound queues), every descriptor-table
entry naming `B`, and the decoders stored for `(B, ClientToServer)` and `(B, ServerToClient)`
as they were; and so does every returning `process_chunk_to_outq` for flow `A`, alone or
inside the read branch of the engine (`recv_chunk`), in either direction. -/
theorem no_cross_flow_interference (s : Engine) (A B : Nat) (hAB : A ≠ B) (hA : A < 2 ^ 32)
    (hB : B < 2 ^ 32)
    (hown : ∀ f, s.flows A = some f → ∀ fd ctx, s.fdctx fd = some ctx → ctx.flow_id = B →
      fd ≠ f.client.fd ∧ fd ≠ f.upstream.fd) :
    (∀ f1 f2 d1 d2, f1 < 2 ^ 32 → f2 < 2 ^ 32 →
      extractor_key f1 d1 = extractor_key f2 d2 → f1 = f2 ∧ d1 = d2) ∧
    ((close_flow s A).flows B = s.flows B ∧
      (∀ fd ctx, s.fdctx fd = some ctx → ctx.flow_id = B →
        (close_flow s A).fdctx fd = some ctx) ∧
      (∀ d, (close_flow s A).g_extractors (extractor_key B d)
        = s.g_extractors (extractor_key B d))) ∧
    (∀ dir data ts chain outq g1 chain1 outq1,
      process_chunk_to_outq s.g_extractors A dir data ts chain outq = .ok (g1, chain1, outq1) →
      ∀ d, g1 (extractor_key B d) = s.g_extractors (extractor_key B d)) ∧
    (∀ f is_client chunk now s1 f1, f.id = A →
      recv_chunk s A f is_client chunk now = .ok (s1, f1) →
      s1.flows B = s.flows B ∧ s1.fdctx = s.fdctx ∧
      ∀ d, s1.g_extractors (extractor_key B d) = s.g_extractors (extractor_key B d)) := by
  have hkey : ∀ dA dB, extractor_key B dB ≠ extractor_key A dA := by
    intro dA dB h
    exact hAB (extractor_key_injective B A dB dA hB hA h).1.symm
  refine ⟨fun f1 f2 d1 d2 h1 h2 h => extractor_key_injective f1 f2 d1 d2 h1 h2 h, ?_, ?_, ?_⟩
  · cases hf : s.flows A with
    | none =>
      rw [close_flow_of_absent s A hf]
      exact ⟨rfl, fun _ _ h _ => h, fun _ => rfl⟩
    | some f =>
      cases hc : f.closed with
      | true =>
        rw [close_flow_of_closed s A f hf hc]
        exact ⟨rfl, fun _ _ h _ => h, fun _ => rfl⟩
      | false =>
        obtain ⟨hflows, hext, hfd, -⟩ := close_flow_of_live s A f hf hc
        refine ⟨?_, ?_, ?_⟩
        · rw [hflows]; exact mapErase_other _ _ _ (Ne.symm hAB)
        · intro fd ctx hctx hid
          obtain ⟨h1, h2⟩ := hown f hf fd ctx hctx hid
          rw [hfd]
          simp only [h1, h2, false_and, or_self, if_false]
          exact hctx
        · intro d
          rw [hext, mapErase_other _ _ _ (hkey _ d), mapErase_other _ _ _ (hkey _ d)]
  · intro dir data ts chain outq g1 chain1 outq1 h d
    obtain ⟨ex, rfl⟩ := process_chunk_to_outq_map _ _ _ _ _ _ _ _ _ _ h
    exact mapSet_other _ _ _ _ (hkey dir d)
  · intro f is_client chunk now s1 f1 hid h
    obtain ⟨hflows, hfd, ex, hext⟩ := recv_chunk_frame s A f is_client chunk now s1 f1 h
    refine ⟨?_, hfd, ?_⟩
    · rw [hflows]; exact mapSet_other _ _ _ _ (Ne.symm hAB)
    · intro d
      rw [hext, hid]
      exact mapSet_other _ _ _ _ (hkey _ d)

/-- No cross-flow interference at an instance: flows 1 and 2 of `two_flow_state`. -/
theorem no_cross_flow_interference_witness :
    ((1 : Nat) ≠ 2 ∧ (1 : Nat) < 2 ^ 32 ∧ (2 : Nat) < 2 ^ 32 ∧
      (∀ f, two_flow_state.flows 1 = some f → ∀ fd ctx, two_flow_state.fdctx fd = some ctx →
        ctx.flow_id = 2 → fd ≠ f.client.fd ∧ fd ≠ f.upstream.fd)) ∧
    ((∀ f1 f2 d1 d2, f1 < 2 ^ 32 → f2 < 2 ^ 32 →
        extractor_key f1 d1 = extractor_key f2 d2 → f1 = f2 ∧ d1 = d2) ∧
      ((close_flow two_flow_state 1).flows 2 = two_flow_state.flows 2 ∧
        (∀ fd ctx, two_flow_state.fdctx fd = some ctx → ctx.flow_id = 2 →
          (close_flow two_flow_state 1).fdctx fd = some ctx) ∧
        (∀ d, (close_flow two_flow_state 1).g_extractors (extractor_key 2 d)
          = two_flow_state.g_extractors (extractor_key 2 d))) ∧
      (∀ dir data ts chain outq g1 chain1 outq1,
        process_chunk_to_outq two_flow_state.g_extractors 1 dir data ts chain outq
          = .ok (g1, chain1, outq1) →
        ∀ d, g1 (extractor_key 2 d) = two_flow_state.g_extractors (extractor_key 2 d)) ∧
      (∀ f is_client chunk now s1 f1, f.id = 1 →
        recv_chunk two_flow_state 1 f is_client chunk now = .ok (s1, f1) →
        s1.flows 2 = two_flow_state.flows 2 ∧ s1.fdctx = two_flow_state.fdctx ∧
        ∀ d, s1.g_extractors (extractor_key 2 d)
          = two_flow_state.g_extractors (extractor_key 2 d))) := by
  have hown : ∀ f, two_flow_state.flows 1 = some f → ∀ fd ctx,
      two_flow_state.fdctx fd = some ctx → ctx.flow_id = 2 →
      fd ≠ f.client.fd ∧ fd ≠ f.upstream.fd := by
    intro f hf fd ctx h hid
    rw [two_flow_state_flows_one] at hf
    cases hf
    rw [two_flow_state_fdctx] at h
    split_ifs at h with h8 h7 h6 h5
    · subst h8; exact ⟨by decide, by decide⟩
    · subst h7; exact ⟨by decide, by decide⟩
    · cases h; cases hid
    · cases h; cases hid
  exact ⟨⟨by decide, by norm_num, by norm_num, hown⟩,
    no_cross_flow_interference two_flow_state 1 2 (by decide) (by norm_num) (by norm_num) hown⟩

/-! ## Claim C12 -/

/-- Below the overflow `has_frame()` does guard `pop`: with a header value `L < 2^32 - 4` and
`has_frame()` true, `pop` returns a payload of exactly `L` bytes and the buffer shrinks by
exactly `4 + L`. -/
theorem pop_of_has_frame_small (b0 b1 b2 b3 : byte) (tl : ByteVec) (ts flow : Nat)
    (dir : Direction)
    (hL : b0.val * 2 ^ 24 + b1.val * 2 ^ 16 + b2.val * 2 ^ 8 + b3.val < 2 ^ 32 - 4)
    (hf : FrameExtractor.has_frame ⟨⟨b0 :: b1 :: b2 :: b3 :: tl⟩⟩ = true) :
    ∃ f ex1, FrameExtractor.pop ⟨⟨b0 :: b1 :: b2 :: b3 :: tl⟩⟩ ts flow dir = .ok (f, ex1) ∧
      f.payload.length = b0.val * 2 ^ 24 + b1.val * 2 ^ 16 + b2.val * 2 ^ 8 + b3.val ∧
      ex1.sb_.size + (4 + (b0.val * 2 ^ 24 + b1.val * 2 ^ 16 + b2.val * 2 ^ 8 + b3.val))
        = (b0 :: b1 :: b2 :: b3 :: tl).length := by
  have hle := (has_frame_iff_of_small b0 b1 b2 b3 tl hL).1 hf
  simp only [List.length_cons] at hle
  have hle2 : b0.val * 2 ^ 24 + b1.val * 2 ^ 16 + b2.val * 2 ^ 8 + b3.val ≤ tl.length := by
    omega
  rw [pop_cons4, if_pos hle2]
  refine ⟨_, _, rfl, ?_, ?_⟩
  · simp only [List.length_take]; omega
  · simp only [StreamBuffer.size, List.length_drop, List.length_cons]; omega

/-- C12 (evaluation at the failing input). With the five bytes `FF FF FF FE 61` buffered
the header announces `L = 4294967294`, the sum `4 + L` wraps to `2` in `uint32_t` and
`has_frame()` is true. In `pop`, `consume(4)` stays within the five buffered bytes and leaves
one byte, and `take(L)` then requests `4294967294` bytes from that single byte: it reads past
the buffered data, and `pop` has no defined result. -/
theorem pop_reads_past_buffer :
    FrameExtractor.has_frame ⟨⟨[255, 255, 255, 254, 97]⟩⟩ = true ∧
    StreamBuffer.peek_u32 ⟨[255, 255, 255, 254, 97]⟩ = some 4294967294 ∧
    StreamBuffer.consume ⟨[255, 255, 255, 254, 97]⟩ 4 = .ok ⟨[97]⟩ ∧
    StreamBuffer.size ⟨[97]⟩ < 4294967294 ∧
    StreamBuffer.take ⟨[97]⟩ 4294967294 = .ub ∧
    FrameExtractor.pop ⟨⟨[255, 255, 255, 254, 97]⟩⟩ 0 1 Direction.ClientToServer = .ub := by
  refine ⟨by decide, by decide, rfl, by decide, rfl, rfl⟩

/-! ## Claim C13 -/

/-- Conservation: with send results within the offer, `flush_outq` returns, and the bytes it
handed to the kernel followed by the buffers it left are the buffers it was given. -/
theorem flush_outq_conserve :
    ∀ (outq : List ByteVec) (sends : List SendResult), sends_within_offer outq sends = true →
      ∃ pending outq1 wire rest, flush_outq outq sends = .ok (pending, outq1, wire, rest) ∧
        wire ++ outq1.flatten = outq.flatten := by
  intro outq
  induction outq with
  | nil =>
    intro sends _
    exact ⟨false, [], [], sends, rfl, rfl⟩
  | cons front tail ih =>
    intro sends hv
    by_cases hfe : front = []
    · subst hfe
      simp only [sends_within_offer, if_true] at hv
      obtain ⟨p, q, w, r, h1, h2⟩ := ih sends hv
      refine ⟨p, q, w, r, ?_, ?_⟩
      · simp only [flush_outq, if_true]; exact h1
      · simpa using h2
    · cases sends with
      | nil => exact ⟨true, front :: tail, [], [], by simp [flush_outq, hfe], rfl⟩
      | cons r sends1 =>
        cases r with
        | would_block =>
          exact ⟨true, front :: tail, [], sends1, by simp [flush_outq, hfe], rfl⟩
        | error =>
          exact ⟨false, front :: tail, [], sends1, by simp [flush_outq, hfe], rfl⟩
        | sent n =>
          simp only [sends_within_offer, hfe, if_false, Bool.and_eq_true,
            decide_eq_true_eq] at hv
          obtain ⟨⟨h1, h2⟩, h3⟩ := hv
          by_cases hd : front.drop n = []
          · have hn : n = front.length := by
              have := List.drop_eq_nil_iff.1 hd
              omega
            rw [if_pos hn] at h3
            obtain ⟨p, q, w, r, e1, e2⟩ := ih sends1 h3
            refine ⟨p, q, front.take n ++ w, r, ?_, ?_⟩
            · simp only [flush_outq, hfe, if_false, gt_iff_lt, show 0 < n from h1, if_true, h2,
                hd, ne_eq, not_true_eq_false, e1, Outcome.bind_ok]
            · rw [hn, List.take_length, List.append_assoc, e2]
              rfl
          · refine ⟨true, front.drop n :: tail, front.take n, sends1, ?_, ?_⟩
            · simp only [flush_outq, hfe, if_false, gt_iff_lt, show 0 < n from h1, if_true, h2,
                hd, ne_eq, not_false_eq_true]
            · simp only [List.flatten_cons, ← List.append_assoc, List.take_append_drop]

/-- Short write: when the kernel accepts the buffers of `done` whole and then only the
first `n` bytes of `front`, `flush_outq` stops there, leaves the rest of `front` at the head
of the queue and reports data still pending. -/
theorem flush_outq_short_write (front : ByteVec) (tail : List ByteVec) (n : Nat)
    (sends1 : List SendResult) (h0 : 0 < n) (hn : n < front.length) :
    ∀ done : List ByteVec,
      flush_outq (done ++ front :: tail) (full_sends done ++ .sent n :: sends1)
        = .ok (true, front.drop n :: tail, done.flatten ++ front.take n, sends1) := by
  have hfe : front ≠ [] := by
    intro h; subst h; simp at hn
  have hd : front.drop n ≠ [] := by
    intro h
    have := List.drop_eq_nil_iff.1 h
    omega
  intro done
  induction done with
  | nil =>
    simp only [full_sends, List.filter_nil, List.map_nil, List.nil_append, flush_outq, hfe,
      if_false, gt_iff_lt, h0, if_true, Nat.le_of_lt hn, hd, ne_eq, not_false_eq_true,
      List.flatten_nil]
  | cons b done ih =>
    by_cases hb : b = []
    · subst hb
      have hfs : full_sends ([] :: done) = full_sends done := by
        simp [full_sends]
      rw [hfs]
      simp only [List.cons_append, flush_outq, if_true, List.append_eq, ih, List.flatten_cons,
        List.nil_append]
    · have hfs : full_sends (b :: done) = .sent b.length :: full_sends done := by
        simp [full_sends, hb]
      have hbl : 0 < b.length := List.length_pos.2 hb
      rw [hfs]
      simp only [List.cons_append, flush_outq, hb, if_false, gt_iff_lt, hbl, if_true,
        le_refl, List.drop_length, ne_eq, not_true_eq_false, List.append_eq, ih,
        Outcome.bind_ok, List.take_length, List.flatten_cons, List.append_assoc]

/-- C13 (`flush_outq` loses and reorders no bytes). For every outbound queue and every
sequence of send results in which each `send` accepts between 1 and the offered number of
bytes or reports would-block or an error, `flush_outq` returns, and the bytes accepted by
`send` during the call, in order, followed by the concatenation of the buffers left in the
queue, equal the concatenation of the buffers in the queue before the call. When a `send`
accepts only the first `n` bytes of a buffer `front` (after the buffers before it were
accepted whole), the unsent remainder of `front` is at the head of the queue left and the
function reports data still pending. -/
theorem flush_outq_loses_no_bytes (outq : List ByteVec) (sends : List SendResult)
    (hsends : sends_within_offer outq sends = true) :
    (∃ pending outq1 wire rest, flush_outq outq sends = .ok (pending, outq1, wire, rest) ∧
      wire ++ outq1.flatten = outq.flatten) ∧
    (∀ done front tail n sends1, outq = done ++ front :: tail →
      sends = full_sends done ++ .sent n :: sends1 → 0 < n → n < front.length →
      flush_outq outq sends
        = .ok (true, front.drop n :: tail, done.flatten ++ front.take n, sends1)) := by
  refine ⟨flush_outq_conserve outq sends hsends, ?_⟩
  intro done front tail n sends1 hq hs h0 hn
  rw [hq, hs]
  exact flush_outq_short_write front tail n sends1 h0 hn done

/-- Witness of C13: the queue `[01 02 03] [] [04 05]`; the kernel takes the first buffer
whole and one byte of the last. -/
theorem flush_outq_loses_no_bytes_witness :
    sends_within_offer [[1, 2, 3], [], [4, 5]] [.sent 3, .sent 1, .error] = true ∧
    ((∃ pending outq1 wire rest,
        flush_outq [[1, 2, 3], [], [4, 5]] [.sent 3, .sent 1, .error]
          = .ok (pending, outq1, wire, rest) ∧
        wire ++ outq1.flatten = ([[1, 2, 3], [], [4, 5]] : List ByteVec).flatten) ∧
      (∀ done front tail n sends1, ([[1, 2, 3], [], [4, 5]] : List ByteVec) = done ++ front :: tail →
        [SendResult.sent 3, .sent 1, .error] = full_sends done ++ .sent n :: sends1 → 0 < n →
        n < front.length →
        flush_outq [[1, 2, 3], [], [4, 5]] [.sent 3, .sent 1, .error]
          = .ok (true, front.drop n :: tail, done.flatten ++ front.take n, sends1))) :=
  ⟨by decide, flush_outq_loses_no_bytes [[1, 2, 3], [], [4, 5]] [.sent 3, .sent 1, .error]
    (by decide)⟩

/-- The run of the witness of C13, evaluated. -/
theorem flush_outq_example :
    flush_outq [[1, 2, 3], [], [4, 5]] [.sent 3, .sent 1, .error]
      = .ok (true, [[5]], [1, 2, 3, 4], [.error]) := rfl

/-! ## Claim C11 -/

theorem Engine.eq_of_fields (a b : Engine) (h1 : a.listen_fd = b.listen_fd)
    (h2 : a.flows = b.flows) (h3 : a.fdctx = b.fdctx) (h4 : a.g_extractors = b.g_extractors)
    (h5 : a.next_flow_id = b.next_flow_id) (h6 : a.chain = b.chain) (h7 : a.epoll = b.epoll) :
    a = b := by
  cases a; cases b
  simp only at h1 h2 h3 h4 h5 h6 h7
  subst h1 h2 h3 h4 h5 h6 h7
  rfl

/-- The function `close_flow` touches only the tables. -/
theorem close_flow_scalars (s : Engine) (fid : Nat) :
    (close_flow s fid).listen_fd = s.listen_fd ∧
    (close_flow s fid).next_flow_id = s.next_flow_id ∧
    (close_flow s fid).chain = s.chain := by
  unfold close_flow
  cases s.flows fid with
  | none => exact ⟨rfl, rfl, rfl⟩
  | some f =>
    simp only
    by_cases hc : f.closed = true
    · simp only [hc, if_true, and_self]
    · by_cases h1 : f.client.fd ≥ 0 <;> by_cases h2 : f.upstream.fd ≥ 0 <;>
        simp only [hc, h1, h2, if_true, if_false, and_self, Bool.false_eq_true]

theorem run_loop_append (s : Engine) (a b : List (List Event)) :
    run_loop s (a ++ b) = (run_loop s a).bind fun s1 => run_loop s1 b := by
  induction a generalizing s with
  | nil => rfl
  | cons x xs ih =>
    simp only [List.cons_append, run_loop]
    cases run_events s x with
    | ok s1 => simp only [Outcome.bind_ok, List.append_eq, ih]
    | ub => rfl
    | fuel => rfl

/-- Flow creation when the next flow id is free and the two descriptors are not registered
with epoll. -/
theorem accept_one_fresh (s : Engine) (cfd sfd : Int) (inprog : Bool)
    (hf : s.flows s.next_flow_id = none) (he1 : s.epoll cfd = none) (he2 : s.epoll sfd = none)
    (hne : sfd ≠ cfd) :
    accept_one s cfd sfd inprog
      = { s with
          next_flow_id := (s.next_flow_id + 1) % 2 ^ 32
          flows := mapSet s.flows s.next_flow_id
            { id := s.next_flow_id, client := { fd := cfd },
              upstream := { fd := sfd, connecting := inprog, want_write := inprog } }
          fdctx := mapSet (mapSet s.fdctx cfd ⟨s.next_flow_id, true⟩) sfd
            ⟨s.next_flow_id, false⟩
          epoll := mapSet (mapSet s.epoll cfd (base_events false)) sfd (base_events inprog) } := by
  unfold accept_one
  have he3 : mapSet s.epoll cfd (base_events false) sfd = none := by
    rw [mapSet_other _ _ _ _ hne]; exact he2
  simp only [hf, Option.isSome_none, Bool.false_eq_true, if_false, mapSet_same, mapSet_mapSet,
    epoll_ctl_add, he1, he3]

/-- One short-lived flow: accepting a client on free descriptors 7 and 8 under a free flow
id and closing it on hang-up only advances `next_flow_id`. -/
theorem wrap_cycle_run (s : Engine) (hl : s.listen_fd = 3)
    (hf : s.flows s.next_flow_id = none) (h7 : s.fdctx 7 = none) (h8 : s.fdctx 8 = none)
    (e7 : s.epoll 7 = none) (e8 : s.epoll 8 = none) (hg : ∀ key, s.g_extractors key = none) :
    run_loop s wrap_cycle = .ok { s with next_flow_id := (s.next_flow_id + 1) % 2 ^ 32 } := by
  have hacc : handle_event s
      { fd := 3, ev := { EPOLLIN := true }, accepts := [.accepted 7 true 8 false] }
      = .ok (accept_one s 7 8 false) := by
    simp [handle_event, hl, accept_loop]
  have hs1 := accept_one_fresh s 7 8 false hf e7 e8 (by decide)
  have hfd : (accept_one s 7 8 false).fdctx 7 = some ⟨s.next_flow_id, true⟩ := by
    rw [hs1]; simp [mapSet]
  have hfl : (accept_one s 7 8 false).flows s.next_flow_id
      = some { id := s.next_flow_id, client := { fd := 7 }, upstream := { fd := 8 } } := by
    rw [hs1]; simp [mapSet]
  have hlf : (accept_one s 7 8 false).listen_fd = 3 := by
    rw [hs1]; exact hl
  have hhup : handle_event (accept_one s 7 8 false)
      { fd := 7, ev := { EPOLLIN := true, EPOLLRDHUP := true } }
      = .ok (close_flow (accept_one s 7 8 false) s.next_flow_id) := by
    simp [handle_event, hlf, hfd, hfl]
  simp only [wrap_cycle, run_loop, run_events, hacc, hhup, Outcome.bind_ok]
  congr 1
  obtain ⟨c1, c2, c3, c4⟩ := close_flow_of_live _ _ _ hfl rfl
  obtain ⟨d1, d2, d3⟩ := close_flow_scalars (accept_one s 7 8 false) s.next_flow_id
  apply Engine.eq_of_fields
  · rw [d1, hs1]
  · rw [c1, hs1]
    funext k
    by_cases hk : k = s.next_flow_id
    · subst hk; simp [mapErase, hf]
    · simp [mapErase, mapSet, hk]
  · rw [c3, hs1]
    funext fd
    by_cases a7 : fd = 7
    · subst a7; simp [h7]
    · by_cases a8 : fd = 8
      · subst a8; simp [h8]
      · simp [mapSet, a7, a8]
  · rw [c2, hs1]
    funext k
    simp [mapErase, hg]
  · rw [d2, hs1]
  · rw [d3, hs1]
  · rw [c4, hs1]
    funext fd
    by_cases a7 : fd = 7
    · subst a7; simp [e7]
    · by_cases a8 : fd = 8
      · subst a8; simp [e8]
      · simp [mapSet, a7, a8]

/-- Short-lived flows in sequence: `n` of them only advance `next_flow_id` by `n`, modulo
`2^32`, as long as the ids they are given are free. -/
theorem wrap_cycles_run :
    ∀ (n : Nat) (s : Engine), s.listen_fd = 3 → s.next_flow_id < 2 ^ 32 →
      (∀ i, i < n → s.flows ((s.next_flow_id + i) % 2 ^ 32) = none) →
      s.fdctx 7 = none → s.fdctx 8 = none → s.epoll 7 = none → s.epoll 8 = none →
      (∀ key, s.g_extractors key = none) →
      run_loop s (List.replicate n wrap_cycle).flatten
        = .ok { s with next_flow_id := (s.next_flow_id + n) % 2 ^ 32 } := by
  intro n
  induction n with
  | zero =>
    intro s _ hlt _ _ _ _ _ _
    simp only [List.replicate_zero, List.flatten_nil, run_loop, Nat.add_zero,
      Nat.mod_eq_of_lt hlt]
  | succ n ih =>
    intro s hl hlt hfree h7 h8 e7 e8 hg
    have h0 : s.flows s.next_flow_id = none := by
      have := hfree 0 (Nat.succ_pos n)
      rwa [Nat.add_zero, Nat.mod_eq_of_lt hlt] at this
    have ih1 := ih { s with next_flow_id := (s.next_flow_id + 1) % 2 ^ 32 } hl
      (Nat.mod_lt _ (by norm_num)) (by
        intro i hi
        have := hfree (i + 1) (by omega)
        have e : ((s.next_flow_id + 1) % 2 ^ 32 + i) % 2 ^ 32
            = (s.next_flow_id + (i + 1)) % 2 ^ 32 := by omega
        show s.flows (((s.next_flow_id + 1) % 2 ^ 32 + i) % 2 ^ 32) = none
        rw [e]
        exact this) h7 h8 e7 e8 hg
    rw [List.replicate_succ, List.flatten_cons, run_loop_append,
      wrap_cycle_run s hl h0 h7 h8 e7 e8 hg, Outcome.bind_ok, ih1]
    congr 1
    apply Engine.eq_of_fields <;> try rfl
    show ((s.next_flow_id + 1) % 2 ^ 32 + n) % 2 ^ 32 = (s.next_flow_id + (n + 1)) % 2 ^ 32
    omega

/-- The long-lived flow and `n` short-lived ones, up to the moment the id counter comes back
to 1: the state is the one after the first accept, with `next_flow_id = 1`. -/
theorem wrap_trace_run (n : Nat) (hn : (2 + n) % 2 ^ 32 = 1)
    (hfree : ∀ i, i < n → (2 + i) % 2 ^ 32 ≠ 1) :
    run_loop (Engine.init 3 {}) (wrap_trace n)
      = run_loop { accept_one (Engine.init 3 {}) 5 6 false with next_flow_id := 1 }
          [[{ fd := 3, ev := { EPOLLIN := true }, accepts := [.accepted 7 true 8 false] }],
           [{ fd := 5, ev := { EPOLLIN := true, EPOLLRDHUP := true } }]] := by
  have h1 : run_loop (Engine.init 3 {})
      [[{ fd := 3, ev := { EPOLLIN := true }, accepts := [.accepted 5 true 6 false] }]]
      = .ok (accept_one (Engine.init 3 {}) 5 6 false) := rfl
  have hflows : ∀ k, k ≠ 1 → (accept_one (Engine.init 3 {}) 5 6 false).flows k = none := by
    intro k hk
    simp [accept_one, Engine.init, mapSet, hk]
  have h2 := wrap_cycles_run n (accept_one (Engine.init 3 {}) 5 6 false) rfl (by decide)
    (fun i hi => hflows _ (hfree i hi)) (by decide) (by decide) (by decide) (by decide)
    (fun _ => rfl)
  unfold wrap_trace
  rw [List.append_assoc, run_loop_append, h1, Outcome.bind_ok, run_loop_append, h2,
    Outcome.bind_ok]
  have hnext : ((accept_one (Engine.init 3 {}) 5 6 false).next_flow_id + n) % 2 ^ 32 = 1 := hn
  rw [hnext]

/-- C11 (evaluation at the failing input). The trace `wrap_trace 4294967295`: flow 1
(descriptors 5 and 6) is accepted and stays open; `2^32 - 1` further clients are accepted and
hang up, taking the ids `2, …, 2^32 - 1, 0`, so that the 32-bit counter `next_flow_id` is
back at 1; the next client (descriptors 7 and 8) is given id 1 again, `flows.emplace` keeps
the old record, but `fdctx[7]` and `fdctx[8]` are written; then the first client hangs up and
`close_flow(1)` removes flow 1 with descriptors 5 and 6. Afterwards descriptors 7 and 8 are
in the descriptor table and name flow id 1, which is not in the flow table. -/
theorem table_consistency_breaks_after_id_wrap :
    (run_loop (Engine.init 3 {}) (wrap_trace 4294967295)).toOption.map
        (fun s => (s.fdctx 7, s.fdctx 8, s.flows 1, s.next_flow_id))
      = some (some ⟨1, true⟩, some ⟨1, false⟩, none, 2) := by
  rw [wrap_trace_run 4294967295 (by norm_num) (by intro i hi; omega)]
  decide

/-! ### The invariant away from the wrap-around -/

theorem tablesConsistent_init (listen_fd : Int) (chain : TransformChain) :
    TablesConsistent (Engine.init listen_fd chain) where
  fd_names_flow := by intro fd ctx h; cases h
  flow_has_fds := by intro fid f h; cases h
  decoder_has_flow := by intro key ex h; cases h
  ids_below_next := by intro fid f h; cases h
  next_lt := by show 1 < 2 ^ 32; norm_num

/-- Replacing the record of a flow by one with the same id, descriptors and `closed` flag,
and possibly storing decoders of that flow, keeps the tables consistent. -/
theorem TablesConsistent.put {s s1 : Engine} (h : TablesConsistent s) (key : Nat) (f f1 : Flow)
    (hf : s.flows key = some f) (hid : f1.id = f.id) (hcl : f1.closed = f.closed)
    (hc : f1.client.fd = f.client.fd) (hu : f1.upstream.fd = f.upstream.fd)
    (hfl : s1.flows = mapSet s.flows key f1) (hfd : s1.fdctx = s.fdctx)
    (hg : ∀ k ex, s1.g_extractors k = some ex →
      (∃ ex0, s.g_extractors k = some ex0) ∨ ∃ d, k = extractor_key key d)
    (hn : s1.next_flow_id = s.next_flow_id) : TablesConsistent s1 where
  fd_names_flow := by
    intro fd ctx hctx
    rw [hfd] at hctx
    obtain ⟨f0, h0, h1⟩ := h.fd_names_flow fd ctx hctx
    rw [hfl]
    by_cases hk : ctx.flow_id = key
    · rw [hk] at h0
      rw [hf] at h0
      cases h0
      refine ⟨f1, by rw [hk]; exact mapSet_same _ _ _, ?_⟩
      rw [hc, hu]; exact h1
    · exact ⟨f0, by rw [mapSet_other _ _ _ _ hk]; exact h0, h1⟩
  flow_has_fds := by
    intro fid g hg1
    rw [hfl] at hg1
    rw [hfd]
    by_cases hk : fid = key
    · subst hk
      rw [mapSet_same] at hg1
      cases hg1
      obtain ⟨a, b, c, d, e, e1⟩ := h.flow_has_fds fid f hf
      exact ⟨hid.trans a, hcl.trans b, hc ▸ c, hu ▸ d, hc ▸ e, hu ▸ e1⟩
    · rw [mapSet_other _ _ _ _ hk] at hg1
      exact h.flow_has_fds fid g hg1
  decoder_has_flow := by
    intro k ex hk
    have hsome : ∀ fid, (s.flows fid).isSome → (s1.flows fid).isSome := by
      intro fid hs
      rw [hfl]
      by_cases hk : fid = key
      · subst hk; rw [mapSet_same]; rfl
      · rw [mapSet_other _ _ _ _ hk]; exact hs
    rcases hg k ex hk with ⟨ex0, h0⟩ | ⟨d, hd⟩
    · obtain ⟨fid, dir, e1, e2⟩ := h.decoder_has_flow k ex0 h0
      exact ⟨fid, dir, e1, hsome fid e2⟩
    · exact ⟨key, d, hd, hsome key (by rw [hf]; rfl)⟩
  ids_below_next := by
    intro fid g hg1
    rw [hfl] at hg1
    rw [hn]
    by_cases hk : fid = key
    · subst hk; exact h.ids_below_next fid f hf
    · rw [mapSet_other _ _ _ _ hk] at hg1
      exact h.ids_below_next fid g hg1
  next_lt := by rw [hn]; exact h.next_lt

/-- Changes outside the three tables and the counter keep the tables consistent. -/
theorem TablesConsistent.congr {s s1 : Engine} (h : TablesConsistent s)
    (hfl : s1.flows = s.flows) (hfd : s1.fdctx = s.fdctx)
    (hg : s1.g_extractors = s.g_extractors) (hn : s1.next_flow_id = s.next_flow_id) :
    TablesConsistent s1 where
  fd_names_flow := by rw [hfl, hfd]; exact h.fd_names_flow
  flow_has_fds := by rw [hfl, hfd]; exact h.flow_has_fds
  decoder_has_flow := by rw [hfl, hg]; exact h.decoder_has_flow
  ids_below_next := by rw [hfl, hn]; exact h.ids_below_next
  next_lt := by rw [hn]; exact h.next_lt

/-- Closing a flow keeps the tables consistent. -/
theorem TablesConsistent.close_flow {s : Engine} (h : TablesConsistent s) (fid : Nat) :
    TablesConsistent (close_flow s fid) := by
  cases hf : s.flows fid with
  | none => rw [close_flow_of_absent s fid hf]; exact h
  | some f =>
    obtain ⟨-, hopen, hc0, hu0, hcfd, hufd⟩ := h.flow_has_fds fid f hf
    obtain ⟨cfl, cg, cfd, -⟩ := close_flow_of_live s fid f hf hopen
    obtain ⟨-, cn, -⟩ := close_flow_scalars s fid
    have hfd : ∀ fd, (Ghostline.close_flow s fid).fdctx fd
        = if fd = f.client.fd ∨ fd = f.upstream.fd then none else s.fdctx fd := by
      intro fd
      rw [cfd]
      simp only [hc0, hu0, and_true]
    refine ⟨?_, ?_, ?_, ?_, ?_⟩
    · intro fd ctx hctx
      rw [hfd] at hctx
      split at hctx
      · cases hctx
      · rename_i hne
        obtain ⟨f0, h0, h1⟩ := h.fd_names_flow fd ctx hctx
        have hk : ctx.flow_id ≠ fid := by
          intro hk
          rw [hk, hf] at h0
          cases h0
          apply hne
          by_cases hic : ctx.is_client = true
          · rw [if_pos hic] at h1; exact Or.inl h1
          · rw [if_neg hic] at h1; exact Or.inr h1
        exact ⟨f0, by rw [cfl, mapErase_other _ _ _ hk]; exact h0, h1⟩
    · intro fid1 g hg
      rw [cfl] at hg
      by_cases hk : fid1 = fid
      · subst hk; rw [mapErase_same] at hg; cases hg
      · rw [mapErase_other _ _ _ hk] at hg
        obtain ⟨a, b, c, d, e, e1⟩ := h.flow_has_fds fid1 g hg
        refine ⟨a, b, c, d, ?_, ?_⟩
        · rw [hfd, if_neg]
          · exact e
          · rintro (h1 | h1)
            · rw [h1, hcfd] at e
              simp only [Option.some.injEq, FdCtx.mk.injEq, and_true] at e
              exact hk e.symm
            · rw [h1, hufd] at e
              simp at e
        · rw [hfd, if_neg]
          · exact e1
          · rintro (h1 | h1)
            · rw [h1, hcfd] at e1
              simp at e1
            · rw [h1, hufd] at e1
              simp only [Option.some.injEq, FdCtx.mk.injEq, and_true] at e1
              exact hk e1.symm
    · intro key ex hkey
      rw [cg] at hkey
      simp only [mapErase] at hkey
      split at hkey
      · cases hkey
      · rename_i hk2
        split at hkey
        · cases hkey
        · rename_i hk1
          obtain ⟨fid1, dir, e1, e2⟩ := h.decoder_has_flow key ex hkey
          have hne : fid1 ≠ fid := by
            intro he
            subst he
            cases dir
            · exact hk1 e1
            · exact hk2 e1
          exact ⟨fid1, dir, e1, by rw [cfl, mapErase_other _ _ _ hne]; exact e2⟩
    · intro fid1 g hg
      rw [cfl] at hg
      rw [cn]
      by_cases hk : fid1 = fid
      · subst hk; rw [mapErase_same] at hg; cases hg
      · rw [mapErase_other _ _ _ hk] at hg
        exact h.ids_below_next fid1 g hg
    · rw [cn]; exact h.next_lt

/-- The tables after a flow creation under a free flow id. -/
theorem accept_one_tables (s : Engine) (cfd sfd : Int) (inprog : Bool)
    (hf : s.flows s.next_flow_id = none) :
    (accept_one s cfd sfd inprog).flows
      = mapSet s.flows s.next_flow_id
          { id := s.next_flow_id, client := { fd := cfd },
            upstream := { fd := sfd, connecting := inprog, want_write := inprog } } ∧
    (accept_one s cfd sfd inprog).fdctx
      = mapSet (mapSet s.fdctx cfd ⟨s.next_flow_id, true⟩) sfd ⟨s.next_flow_id, false⟩ ∧
    (accept_one s cfd sfd inprog).g_extractors = s.g_extractors ∧
    (accept_one s cfd sfd inprog).next_flow_id = (s.next_flow_id + 1) % 2 ^ 32 := by
  unfold accept_one
  simp only [hf, Option.isSome_none, Bool.false_eq_true, if_false, mapSet_same, mapSet_mapSet,
    and_self]

/-- Creating a flow on two distinct unused descriptors, with the counter not wrapping, keeps
the tables consistent. -/
theorem TablesConsistent.accept_one {s : Engine} (h : TablesConsistent s) (cfd sfd : Int)
    (inprog : Bool) (hc0 : 0 ≤ cfd) (hs0 : 0 ≤ sfd) (hfc : s.fdctx cfd = none)
    (hfs : s.fdctx sfd = none) (hne : cfd ≠ sfd) (hnw : s.next_flow_id + 1 < 2 ^ 32) :
    TablesConsistent (accept_one s cfd sfd inprog) := by
  have hfree : s.flows s.next_flow_id = none := by
    cases hx : s.flows s.next_flow_id with
    | none => rfl
    | some f => exact absurd (h.ids_below_next _ f hx) (lt_irrefl _)
  obtain ⟨afl, afd, ag, an⟩ := accept_one_tables s cfd sfd inprog hfree
  have hn : (Ghostline.accept_one s cfd sfd inprog).next_flow_id = s.next_flow_id + 1 := by
    rw [an]; exact Nat.mod_eq_of_lt hnw
  have hfdc : ∀ fd, (Ghostline.accept_one s cfd sfd inprog).fdctx fd
      = if fd = sfd then some ⟨s.next_flow_id, false⟩
        else if fd = cfd then some ⟨s.next_flow_id, true⟩ else s.fdctx fd := by
    intro fd; rw [afd]; rfl
  refine ⟨?_, ?_, ?_, ?_, ?_⟩
  · intro fd ctx hctx
    rw [hfdc] at hctx
    rw [afl]
    split at hctx
    · rename_i e
      cases hctx
      exact ⟨_, mapSet_same _ _ _, e⟩
    · split at hctx
      · rename_i e
        cases hctx
        exact ⟨_, mapSet_same _ _ _, e⟩
      · obtain ⟨f0, h0, h1⟩ := h.fd_names_flow fd ctx hctx
        have hk : ctx.flow_id ≠ s.next_flow_id := by
          intro hk; rw [hk, hfree] at h0; cases h0
        exact ⟨f0, by rw [mapSet_other _ _ _ _ hk]; exact h0, h1⟩
  · intro fid g hg
    rw [afl] at hg
    by_cases hk : fid = s.next_flow_id
    · subst hk
      rw [mapSet_same] at hg
      cases hg
      refine ⟨rfl, rfl, hc0, hs0, ?_, ?_⟩
      · rw [hfdc, if_neg hne, if_pos rfl]
      · rw [hfdc, if_pos rfl]
    · rw [mapSet_other _ _ _ _ hk] at hg
      obtain ⟨a, b, c, d, e, e1⟩ := h.flow_has_fds fid g hg
      refine ⟨a, b, c, d, ?_, ?_⟩
      · have n1 : g.client.fd ≠ sfd := by intro x; rw [x, hfs] at e; cases e
        have n2 : g.client.fd ≠ cfd := by intro x; rw [x, hfc] at e; cases e
        rw [hfdc, if_neg n1, if_neg n2]; exact e
      · have n1 : g.upstream.fd ≠ sfd := by intro x; rw [x, hfs] at e1; cases e1
        have n2 : g.upstream.fd ≠ cfd := by intro x; rw [x, hfc] at e1; cases e1
        rw [hfdc, if_neg n1, if_neg n2]; exact e1
  · intro key ex hkey
    rw [ag] at hkey
    obtain ⟨fid, dir, e1, e2⟩ := h.decoder_has_flow key ex hkey
    refine ⟨fid, dir, e1, ?_⟩
    rw [afl]
    by_cases hk : fid = s.next_flow_id
    · subst hk; rw [mapSet_same]; rfl
    · rw [mapSet_other _ _ _ _ hk]; exact e2
  · intro fid g hg
    rw [afl] at hg
    rw [hn]
    by_cases hk : fid = s.next_flow_id
    · subst hk; exact Nat.lt_succ_self _
    · rw [mapSet_other _ _ _ _ hk] at hg
      exact Nat.lt_succ_of_lt (h.ids_below_next fid g hg)
  · rw [hn]; exact hnw

/-- The accept loop keeps the tables consistent. -/
theorem TablesConsistent.accept_loop :
    ∀ (accepts : List AcceptResult) (s : Engine), TablesConsistent s →
      accepts_valid s accepts → TablesConsistent (accept_loop s accepts) := by
  intro accepts
  induction accepts with
  | nil => intro s h _; exact h
  | cons a rest ih =>
    intro s h hv
    cases a with
    | failed => exact h
    | accepted cfd nb sfd inprog =>
      simp only [Ghostline.accept_loop]
      simp only [accepts_valid] at hv
      by_cases h1 : cfd < 0
      · rw [if_pos h1]; exact h
      · rw [if_neg h1] at hv ⊢
        by_cases h2 : (!nb) = true
        · rw [if_pos h2] at hv ⊢; exact ih s h hv
        · rw [if_neg h2] at hv ⊢
          by_cases h3 : sfd < 0
          · rw [if_pos h3] at hv ⊢; exact ih s h hv
          · rw [if_neg h3] at hv ⊢
            obtain ⟨⟨a1, a2, a3, a4⟩, hrest⟩ := hv
            exact ih _ (h.accept_one cfd sfd inprog (by omega) (by omega) a1 a2 a3 a4) hrest

theorem Flow.setSrc_identity (f : Flow) (is_client : Bool) (p : Peer)
    (hp : p.fd = (f.src is_client).fd) :
    (f.setSrc is_client p).id = f.id ∧ (f.setSrc is_client p).closed = f.closed ∧
    (f.setSrc is_client p).client.fd = f.client.fd ∧
    (f.setSrc is_client p).upstream.fd = f.upstream.fd := by
  cases is_client <;> simp_all [Flow.setSrc, Flow.src]

theorem Flow.setDst_identity (f : Flow) (is_client : Bool) (p : Peer)
    (hp : p.fd = (f.dst is_client).fd) :
    (f.setDst is_client p).id = f.id ∧ (f.setDst is_client p).closed = f.closed ∧
    (f.setDst is_client p).client.fd = f.client.fd ∧
    (f.setDst is_client p).upstream.fd = f.upstream.fd := by
  cases is_client <;> simp_all [Flow.setDst, Flow.dst]

/-- Completing (or failing) a connect keeps the tables consistent; when the flow survives,
its record is the one stored under `key`. -/
theorem connect_step_consistent (s : Engine) (key : Nat) (f : Flow) (is_client ok : Bool)
    (h : TablesConsistent s) (hf : s.flows key = some f) :
    TablesConsistent (connect_step s key f is_client ok).1 ∧
    ∀ f1, (connect_step s key f is_client ok).2 = some f1 →
      (connect_step s key f is_client ok).1.flows key = some f1 := by
  unfold connect_step
  simp only
  split
  · split
    · exact ⟨h.close_flow f.id, fun f1 hf1 => by cases hf1⟩
    · obtain ⟨a, b, c, d⟩ := Flow.setSrc_identity f is_client
        { f.src is_client with connecting := false,
                               want_write := !(f.src is_client).outq.isEmpty } rfl
      refine ⟨h.put key f _ hf a b c d rfl rfl (fun k ex hk => Or.inl ⟨ex, hk⟩) rfl, ?_⟩
      intro f1 hf1
      cases hf1
      exact mapSet_same _ _ _
  · exact ⟨h, fun f1 hf1 => by cases hf1; exact hf⟩

/-- Flushing the queue keeps the tables consistent and the record stored under `key`. -/
theorem flush_step_consistent (s : Engine) (key : Nat) (f : Flow) (is_client : Bool)
    (sends : List SendResult) (s1 : Engine) (f1 : Flow) (h : TablesConsistent s)
    (hf : s.flows key = some f) (hr : flush_step s key f is_client sends = .ok (s1, f1)) :
    TablesConsistent s1 ∧ s1.flows key = some f1 := by
  unfold flush_step at hr
  simp only at hr
  split at hr
  · cases hq : flush_outq (f.src is_client).outq sends with
    | ok r =>
      rw [hq, Outcome.bind_ok] at hr
      simp only [Outcome.ok.injEq, Prod.mk.injEq] at hr
      obtain ⟨rfl, rfl⟩ := hr
      obtain ⟨a, b, c, d⟩ := Flow.setSrc_identity f is_client
        { f.src is_client with outq := r.2.1, want_write := r.1 } rfl
      exact ⟨h.put key f _ hf a b c d rfl rfl (fun k ex hk => Or.inl ⟨ex, hk⟩) rfl,
        mapSet_same _ _ _⟩
    | ub => rw [hq] at hr; cases hr
    | fuel => rw [hq] at hr; cases hr
  · split at hr
    · simp only [Outcome.ok.injEq, Prod.mk.injEq] at hr
      obtain ⟨rfl, rfl⟩ := hr
      obtain ⟨a, b, c, d⟩ := Flow.setSrc_identity f is_client
        { f.src is_client with want_write := false } rfl
      exact ⟨h.put key f _ hf a b c d rfl rfl (fun k ex hk => Or.inl ⟨ex, hk⟩) rfl,
        mapSet_same _ _ _⟩
    · simp only [Outcome.ok.injEq, Prod.mk.injEq] at hr
      obtain ⟨rfl, rfl⟩ := hr
      exact ⟨h, hf⟩

/-- A returning `recv_chunk` keeps the id, the descriptors and the `closed` flag of the flow,
and the counter. -/
theorem recv_chunk_identity (s : Engine) (key : Nat) (f : Flow) (is_client : Bool)
    (chunk : ByteVec) (now : Nat) (s1 : Engine) (f1 : Flow)
    (h : recv_chunk s key f is_client chunk now = .ok (s1, f1)) :
    s1.next_flow_id = s.next_flow_id ∧ f1.id = f.id ∧ f1.closed = f.closed ∧
    f1.client.fd = f.client.fd ∧ f1.upstream.fd = f.upstream.fd := by
  unfold recv_chunk at h
  cases hp : process_chunk_to_outq s.g_extractors f.id
      (if is_client then Direction.ClientToServer else Direction.ServerToClient) chunk now
      s.chain (f.dst is_client).outq with
  | ok r =>
    simp only [hp, Outcome.bind_ok] at h
    split at h
    · simp only [Outcome.ok.injEq, Prod.mk.injEq] at h
      obtain ⟨rfl, rfl⟩ := h
      exact ⟨rfl, Flow.setDst_identity f is_client
        { f.dst is_client with outq := r.2.2, want_write := true } rfl⟩
    · simp only [Outcome.ok.injEq, Prod.mk.injEq] at h
      obtain ⟨rfl, rfl⟩ := h
      exact ⟨rfl, Flow.setDst_identity f is_client { f.dst is_client with outq := r.2.2 } rfl⟩
  | ub => simp only [hp, Outcome.bind_ub] at h; cases h
  | fuel => simp only [hp, Outcome.bind_fuel] at h; cases h

/-- Reading a chunk keeps the tables consistent and the record stored under `key`. -/
theorem recv_chunk_consistent (s : Engine) (key : Nat) (f : Flow) (is_client : Bool)
    (chunk : ByteVec) (now : Nat) (s1 : Engine) (f1 : Flow) (h : TablesConsistent s)
    (hf : s.flows key = some f)
    (hr : recv_chunk s key f is_client chunk now = .ok (s1, f1)) :
    TablesConsistent s1 ∧ s1.flows key = some f1 := by
  obtain ⟨hfl, hfd, ex, hg⟩ := recv_chunk_frame s key f is_client chunk now s1 f1 hr
  obtain ⟨hn, a, b, c, d⟩ := recv_chunk_identity s key f is_client chunk now s1 f1 hr
  have hid : f.id = key := (h.flow_has_fds key f hf).1
  refine ⟨h.put key f f1 hf a b c d hfl hfd ?_ hn, by rw [hfl]; exact mapSet_same _ _ _⟩
  intro k ex1 hk
  rw [hg, hid] at hk
  by_cases hkk : k = extractor_key key
      (if is_client then Direction.ClientToServer else Direction.ServerToClient)
  · exact Or.inr ⟨_, hkk⟩
  · rw [mapSet_other _ _ _ _ hkk] at hk
    exact Or.inl ⟨ex1, hk⟩

/-- The read loop keeps the tables consistent. -/
theorem recv_loop_consistent (key : Nat) (is_client : Bool) :
    ∀ (recvs : List RecvResult) (s : Engine) (f : Flow) (s1 : Engine), TablesConsistent s →
      s.flows key = some f → recv_loop s key f is_client recvs = .ok s1 →
      TablesConsistent s1 := by
  intro recvs
  induction recvs with
  | nil =>
    intro s f s1 h _ hr
    simp only [recv_loop, Outcome.ok.injEq] at hr
    exact hr ▸ h
  | cons r rest ih =>
    intro s f s1 h hf hr
    cases r with
    | bytes chunk now =>
      simp only [recv_loop] at hr
      split at hr
      · cases hc : recv_chunk s key f is_client chunk now with
        | ok x =>
          rw [hc, Outcome.bind_ok] at hr
          obtain ⟨h1, hf1⟩ := recv_chunk_consistent s key f is_client chunk now x.1 x.2 h hf hc
          exact ih x.1 x.2 s1 h1 hf1 hr
        | ub => rw [hc] at hr; cases hr
        | fuel => rw [hc] at hr; cases hr
      · simp only [Outcome.ok.injEq] at hr
        exact hr ▸ h.close_flow f.id
    | would_block =>
      simp only [recv_loop, Outcome.ok.injEq] at hr
      exact hr ▸ h
    | error =>
      simp only [recv_loop, Outcome.ok.injEq] at hr
      exact hr ▸ h.close_flow f.id

/-- Handling one ready descriptor keeps the tables consistent. -/
theorem handle_event_consistent (s : Engine) (e : Event) (s1 : Engine)
    (h : TablesConsistent s) (hv : e.fd = s.listen_fd → accepts_valid s e.accepts)
    (hr : handle_event s e = .ok s1) : TablesConsistent s1 := by
  unfold handle_event at hr
  split at hr
  · rename_i hl
    split at hr
    · simp only [Outcome.ok.injEq] at hr; exact hr ▸ h
    · simp only [Outcome.ok.injEq] at hr
      exact hr ▸ h.accept_loop e.accepts s (hv hl)
  · split at hr
    · simp only [Outcome.ok.injEq] at hr; exact hr ▸ h
    · rename_i ctx hctx
      split at hr
      · simp only [Outcome.ok.injEq] at hr; exact hr ▸ h
      · rename_i f hf
        split at hr
        · simp only [Outcome.ok.injEq] at hr; exact hr ▸ h.close_flow f.id
        · have hw : ∀ sa r,
              (if e.ev.EPOLLOUT = true then
                match connect_step s ctx.flow_id f ctx.is_client e.so_error_ok with
                | (s1, none) => Outcome.ok (s1, none)
                | (s1, some f1) =>
                  (flush_step s1 ctx.flow_id f1 ctx.is_client e.sends).bind fun r =>
                    Outcome.ok (r.1, some r.2)
              else Outcome.ok (s, some f)) = Outcome.ok (sa, r) →
              TablesConsistent sa ∧ ∀ f1, r = some f1 → sa.flows ctx.flow_id = some f1 := by
            intro sa r hw
            split at hw
            · obtain ⟨c1, c2⟩ := connect_step_consistent s ctx.flow_id f ctx.is_client
                e.so_error_ok h hf
              split at hw
              · rename_i sb heq
                simp only [Outcome.ok.injEq, Prod.mk.injEq] at hw
                obtain ⟨rfl, rfl⟩ := hw
                rw [heq] at c1
                exact ⟨c1, fun f1 hf1 => by cases hf1⟩
              · rename_i sb fb heq
                rw [heq] at c1 c2
                cases hfs : flush_step sb ctx.flow_id fb ctx.is_client e.sends with
                | ok x =>
                  rw [hfs, Outcome.bind_ok] at hw
                  simp only [Outcome.ok.injEq, Prod.mk.injEq] at hw
                  obtain ⟨rfl, rfl⟩ := hw
                  obtain ⟨d1, d2⟩ := flush_step_consistent sb ctx.flow_id fb ctx.is_client
                    e.sends x.1 x.2 c1 (c2 fb rfl) hfs
                  exact ⟨d1, fun f1 hf1 => by cases hf1; exact d2⟩
                | ub => rw [hfs] at hw; cases hw
                | fuel => rw [hfs] at hw; cases hw
            · simp only [Outcome.ok.injEq, Prod.mk.injEq] at hw
              obtain ⟨rfl, rfl⟩ := hw
              exact ⟨h, fun f1 hf1 => by cases hf1; exact hf⟩
          simp only at hr
          generalize (if e.ev.EPOLLOUT = true then
                match connect_step s ctx.flow_id f ctx.is_client e.so_error_ok with
                | (s1, none) => Outcome.ok (s1, none)
                | (s1, some f1) =>
                  (flush_step s1 ctx.flow_id f1 ctx.is_client e.sends).bind fun r =>
                    Outcome.ok (r.1, some r.2)
              else Outcome.ok (s, some f)) = w at hw hr
          cases w with
          | ok x =>
            obtain ⟨sa, r⟩ := x
            obtain ⟨c1, c2⟩ := hw sa r rfl
            rw [Outcome.bind_ok] at hr
            cases r with
            | none =>
              simp only [Outcome.ok.injEq] at hr
              exact hr ▸ c1
            | some f1 =>
              simp only at hr
              split at hr
              · split at hr
                · simp only [Outcome.ok.injEq] at hr
                  exact hr ▸ c1
                · exact recv_loop_consistent ctx.flow_id ctx.is_client e.recvs sa f1 s1 c1
                    (c2 f1 rfl) hr
              · simp only [Outcome.ok.injEq] at hr
                exact hr ▸ c1
          | ub => cases hr
          | fuel => cases hr

/-- One iteration of the loop keeps the tables consistent. -/
theorem run_events_consistent :
    ∀ (es : List Event) (s s1 : Engine), TablesConsistent s → events_valid s es →
      run_events s es = .ok s1 → TablesConsistent s1 := by
  intro es
  induction es with
  | nil =>
    intro s s1 h _ hr
    simp only [run_events, Outcome.ok.injEq] at hr
    exact hr ▸ h
  | cons e es ih =>
    intro s s1 h hv hr
    obtain ⟨hv1, hv2⟩ := hv
    simp only [run_events] at hr
    cases he : handle_event s e with
    | ok sa =>
      rw [he, Outcome.bind_ok] at hr
      exact ih sa s1 (handle_event_consistent s e sa h hv1 he) (hv2 sa he) hr
    | ub => rw [he] at hr; cases hr
    | fuel => rw [he] at hr; cases hr

/-- Any number of iterations of the loop keeps the tables consistent. -/
theorem run_loop_consistent :
    ∀ (bs : List (List Event)) (s s1 : Engine), TablesConsistent s → trace_valid s bs →
      run_loop s bs = .ok s1 → TablesConsistent s1 := by
  intro bs
  induction bs with
  | nil =>
    intro s s1 h _ hr
    simp only [run_loop, Outcome.ok.injEq] at hr
    exact hr ▸ h
  | cons b bs ih =>
    intro s s1 h hv hr
    obtain ⟨hv1, hv2⟩ := hv
    simp only [run_loop] at hr
    cases he : run_events s b with
    | ok sa =>
      rw [he, Outcome.bind_ok] at hr
      exact ih sa s1 (run_events_consistent b s sa h hv1 he) (hv2 sa he) hr
    | ub => rw [he] at hr; cases hr
    | fuel => rw [he] at hr; cases hr

/-- Table consistency as long as the flow-id counter has not wrapped: from the empty tables,
after any run in which the kernel hands out unused descriptors and `next_flow_id` stays below
`2^32`, every descriptor in the descriptor table names a flow in the flow table, every flow
has both its descriptors in the descriptor table mapped to its id, and every decoder belongs
to a flow in the flow table. -/
theorem tables_consistent_before_wrap (listen_fd : Int) (chain : TransformChain)
    (trace : List (List Event)) (s1 : Engine)
    (hv : trace_valid (Engine.init listen_fd chain) trace)
    (hr : run_loop (Engine.init listen_fd chain) trace = .ok s1) :
    (∀ fd ctx, s1.fdctx fd = some ctx → (s1.flows ctx.flow_id).isSome) ∧
    (∀ fid f, s1.flows fid = some f →
      s1.fdctx f.client.fd = some ⟨fid, true⟩ ∧ s1.fdctx f.upstream.fd = some ⟨fid, false⟩) ∧
    (∀ key ex, s1.g_extractors key = some ex →
      ∃ fid dir, key = extractor_key fid dir ∧ (s1.flows fid).isSome) := by
  have h := run_loop_consistent trace _ s1 (tablesConsistent_init listen_fd chain) hv hr
  refine ⟨?_, ?_, h.decoder_has_flow⟩
  · intro fd ctx hctx
    obtain ⟨f, hf, -⟩ := h.fd_names_flow fd ctx hctx
    rw [hf]; rfl
  · intro fid f hf
    obtain ⟨-, -, -, -, e1, e2⟩ := h.flow_has_fds fid f hf
    exact ⟨e1, e2⟩

/-- The run `fatal_send_trace` respects `trace_valid`. -/
theorem fatal_send_trace_valid : trace_valid (Engine.init 3 {}) fatal_send_trace := by
  have h1 : run_events (Engine.init 3 {})
      [{ fd := 3, ev := { EPOLLIN := true }, accepts := [.accepted 5 true 6 false] }]
      = .ok (accept_one (Engine.init 3 {}) 5 6 false) := rfl
  refine ⟨⟨fun _ => ?_, fun _ _ => trivial⟩, ?_⟩
  · simp only [accepts_valid]
    refine ⟨⟨rfl, rfl, by decide, ?_⟩, trivial⟩
    show 1 + 1 < 2 ^ 32
    norm_num
  · intro s1 hs1
    rw [h1] at hs1
    cases hs1
    refine ⟨⟨fun hfd => absurd hfd (by decide), fun _ _ => trivial⟩, ?_⟩
    intro s2 _
    refine ⟨⟨fun hfd => ?_, fun _ _ => trivial⟩, fun _ _ => trivial⟩
    trivial

/-- The tables at the end of `fatal_send_trace` are consistent. -/
theorem tables_consistent_before_wrap_example (s1 : Engine)
    (hr : run_loop (Engine.init 3 {}) fatal_send_trace = .ok s1) :
    (∀ fd ctx, s1.fdctx fd = some ctx → (s1.flows ctx.flow_id).isSome) ∧
    (∀ fid f, s1.flows fid = some f →
      s1.fdctx f.client.fd = some ⟨fid, true⟩ ∧ s1.fdctx f.upstream.fd = some ⟨fid, false⟩) ∧
    (∀ key ex, s1.g_extractors key = some ex →
      ∃ fid dir, key = extractor_key fid dir ∧ (s1.flows fid).isSome) :=
  tables_consistent_before_wrap 3 {} fatal_send_trace s1 fatal_send_trace_valid hr

/-- In consistent tables the descriptor-table entries naming a flow are its own two
descriptors (the hypothesis under which teardown completeness is proved). -/
theorem TablesConsistent.descriptors_of_flow {s : Engine} (h : TablesConsistent s) (fid : Nat)
    (f : Flow) (hf : s.flows fid = some f) :
    ∀ fd ctx, s.fdctx fd = some ctx → ctx.flow_id = fid →
      0 ≤ fd ∧ (fd = f.client.fd ∨ fd = f.upstream.fd) := by
  intro fd ctx hctx hid
  obtain ⟨f0, h0, h1⟩ := h.fd_names_flow fd ctx hctx
  rw [hid, hf] at h0
  cases h0
  obtain ⟨-, -, c, d, -, -⟩ := h.flow_has_fds fid f hf
  by_cases hic : ctx.is_client = true
  · rw [if_pos hic] at h1; exact ⟨h1 ▸ c, Or.inl h1⟩
  · rw [if_neg hic] at h1; exact ⟨h1 ▸ d, Or.inr h1⟩

/-- In consistent tables no descriptor of a flow is registered for another flow (the
hypothesis under which the absence of cross-flow interference is proved). -/
theorem TablesConsistent.descriptors_disjoint {s : Engine} (h : TablesConsistent s) (A B : Nat)
    (hAB : A ≠ B) :
    ∀ f, s.flows A = some f → ∀ fd ctx, s.fdctx fd = some ctx → ctx.flow_id = B →
      fd ≠ f.client.fd ∧ fd ≠ f.upstream.fd := by
  intro f hf fd ctx hctx hid
  obtain ⟨-, -, -, -, e1, e2⟩ := h.flow_has_fds A f hf
  constructor
  · intro he
    rw [he, e1] at hctx
    cases hctx
    exact hAB hid
  · intro he
    rw [he, e2] at hctx
    cases hctx
    exact hAB hid

/-! ## Claims C9 and C10 at the failing inputs -/

/-- The long-lived flow and `n` short-lived ones, up to the moment the id counter is back at
1 and one more client is accepted. -/
theorem wrap_live_trace_run (n : Nat) (hn : (2 + n) % 2 ^ 32 = 1)
    (hfree : ∀ i, i < n → (2 + i) % 2 ^ 32 ≠ 1) :
    run_loop (Engine.init 3 {}) (wrap_live_trace n)
      = run_loop { accept_one (Engine.init 3 {}) 5 6 false with next_flow_id := 1 }
          [[{ fd := 3, ev := { EPOLLIN := true }, accepts := [.accepted 7 true 8 false] }]] := by
  have h1 : run_loop (Engine.init 3 {})
      [[{ fd := 3, ev := { EPOLLIN := true }, accepts := [.accepted 5 true 6 false] }]]
      = .ok (accept_one (Engine.init 3 {}) 5 6 false) := rfl
  have hflows : ∀ k, k ≠ 1 → (accept_one (Engine.init 3 {}) 5 6 false).flows k = none := by
    intro k hk
    simp [accept_one, Engine.init, mapSet, hk]
  have h2 := wrap_cycles_run n (accept_one (Engine.init 3 {}) 5 6 false) rfl (by decide)
    (fun i hi => hflows _ (hfree i hi)) (by decide) (by decide) (by decide) (by decide)
    (fun _ => rfl)
  unfold wrap_live_trace
  rw [List.append_assoc, run_loop_append, h1, Outcome.bind_ok, run_loop_append, h2,
    Outcome.bind_ok]
  have hnext : ((accept_one (Engine.init 3 {}) 5 6 false).next_flow_id + n) % 2 ^ 32 = 1 := hn
  rw [hnext]

/-- C9 (evaluation at the failing input). The state after `wrap_live_trace 4294967295`:
flow 1 (client descriptor 5, upstream descriptor 6) is live and not closed, and because the
32-bit counter `next_flow_id` came back to 1 the descriptor table also holds descriptors 7
and 8 under flow id 1. After `close_flow(1)` the flow table has no entry for flow 1 and
descriptors 5 and 6 are gone, but the descriptor table still has the two entries
`7 ↦ (1, client)` and `8 ↦ (1, upstream)` whose flow id is 1. -/
theorem close_flow_leaves_descriptors_after_id_wrap :
    (run_loop (Engine.init 3 {}) (wrap_live_trace 4294967295)).toOption.map
        (fun s => ((s.flows 1).map fun f => (f.closed, f.client.fd, f.upstream.fd),
          (close_flow s 1).flows 1, (close_flow s 1).fdctx 5, (close_flow s 1).fdctx 6,
          (close_flow s 1).fdctx 7, (close_flow s 1).fdctx 8))
      = some (some (false, 5, 6), none, none, none, some ⟨1, true⟩, some ⟨1, false⟩) := by
  rw [wrap_live_trace_run 4294967295 (by norm_num) (by intro i hi; omega)]
  rfl

/-- C10 (evaluation at the failing input). After the first two iterations of
`cross_flow_trace` flow 2 is live with a buffer queued for its upstream, both its
descriptors in the descriptor table and two bytes in its decoder. In the third iteration
`process_chunk_to_outq` is called for flow 1 with the chunk `FF FF FF FF`: `has_frame()` is
true (the sum `4 + len` wraps) and `pop` reads past the buffer, so the call does not return
(in that state, and with no decoder at all), and the read branch around it and the loop
fault: no flow table, queue, descriptor table or decoder of flow 2 is left. -/
theorem cross_flow_fault_at_max_length :
    (run_loop (Engine.init 3 {}) (cross_flow_trace.take 2)).toOption.map
        (fun s => ((s.flows 1).isSome, (s.flows 2).map fun f => (f.upstream.fd, f.upstream.outq),
          s.fdctx 7, s.fdctx 8, s.g_extractors (extractor_key 2 Direction.ClientToServer)))
      = some (true, some (8, [[0, 0, 0, 1, 98]]), some ⟨2, true⟩, some ⟨2, false⟩,
          some ⟨⟨[0, 0]⟩⟩) ∧
    (run_loop (Engine.init 3 {}) (cross_flow_trace.take 2)).toOption.map
        (fun s => (process_chunk_to_outq s.g_extractors 1 Direction.ClientToServer
          [255, 255, 255, 255] 11 s.chain []).toOption.isSome)
      = some false ∧
    process_chunk_to_outq (fun _ => none) 1 Direction.ClientToServer [255, 255, 255, 255] 11
      {} [] = .ub ∧
    run_loop (Engine.init 3 {}) cross_flow_trace = .ub ∧
    (run_loop (Engine.init 3 {}) cross_flow_trace).toOption.map
        (fun s => (s.flows 2, s.fdctx 7, s.fdctx 8,
          s.g_extractors (extractor_key 2 Direction.ClientToServer)))
      = none := by
  refine ⟨rfl, rfl, rfl, rfl, rfl⟩

end Ghostline
